import Mathlib

/-
Verification of the Hierarchical Content Export Engine of the
atlassian-backup-tool-for-gui repository.

The development shallowly embeds the engine's TypeScript sources:
  * src/server/utils/fileUtils.ts   (safeFilename)
  * src/server/services/treeBuilder.ts (buildTree, getTreeStats)
  * src/server/services/parser.ts   (confluenceCodeMacroToFence,
                                     convertViewFileMacro,
                                     processConfluenceHtml / -ForPdf,
                                     convertPages)
JavaScript strings are modelled as `List Char`; regex passes are modelled
as the explicit character-level rewrites they implement; the effectful
export orchestrator is modelled with an explicit event log and oracles
for the external attachment client and the headless renderer.
-/

namespace AtlasBackup

-- ===========================================================================
-- § 1  Character / string primitives shared by several source functions
-- ===========================================================================

/-- The character class matched by JavaScript's `\s` (and removed by
`String.prototype.trim`), as used by the regexes in `fileUtils.ts` and
the trim calls in `parser.ts`. -/
def jsWhitespaceChars : List Char :=
  [' ', '\t', '\n', '\r', Char.ofNat 11, Char.ofNat 12,
   Char.ofNat 0xa0, Char.ofNat 0x1680,
   Char.ofNat 0x2000, Char.ofNat 0x2001, Char.ofNat 0x2002, Char.ofNat 0x2003,
   Char.ofNat 0x2004, Char.ofNat 0x2005, Char.ofNat 0x2006, Char.ofNat 0x2007,
   Char.ofNat 0x2008, Char.ofNat 0x2009, Char.ofNat 0x200a,
   Char.ofNat 0x2028, Char.ofNat 0x2029, Char.ofNat 0x202f,
   Char.ofNat 0x205f, Char.ofNat 0x3000, Char.ofNat 0xfeff]

def isJsWhitespace (c : Char) : Bool := jsWhitespaceChars.contains c

/-- JavaScript `String.prototype.trim` on a character list. -/
def jsTrimL (s : List Char) : List Char :=
  ((s.dropWhile isJsWhitespace).reverse.dropWhile isJsWhitespace).reverse

/-- JavaScript `String.prototype.trimEnd` on a character list. -/
def jsTrimEndL (s : List Char) : List Char :=
  (s.reverse.dropWhile isJsWhitespace).reverse

/-- `.replace(/\r\n/g, '\n')`: CRLF → LF normalization
(parser.ts line 166). -/
def normCrlf : List Char → List Char
  | [] => []
  | [c] => [c]
  | c1 :: c2 :: rest =>
    if c1 = '\r' ∧ c2 = '\n' then '\n' :: normCrlf rest
    else c1 :: normCrlf (c2 :: rest)

/-- Global replacement of every maximal run of characters satisfying `p`
by the single character `r` (the `.replace(/[...]+/g, '_')` steps of
`safeFilename`).  The Boolean argument records whether the previous
input character was part of a run. -/
def replaceRunsFlag (p : Char → Bool) (r : Char) : Bool → List Char → List Char
  | _, [] => []
  | inRun, c :: cs =>
    if p c then
      if inRun then replaceRunsFlag p r true cs
      else r :: replaceRunsFlag p r true cs
    else c :: replaceRunsFlag p r false cs

def replaceRuns (p : Char → Bool) (r : Char) (s : List Char) : List Char :=
  replaceRunsFlag p r false s

/-- Global replacement of the single character `c` by the string `rep`
(the sequential `.replace(/x/g, 'y')` steps of `escapeHtml`). -/
def replaceCharAll (c : Char) (rep : List Char) (s : List Char) : List Char :=
  s.flatMap (fun x => if x = c then rep else [x])

/-- Split a character list at every `'\n'` (never returns `[]`). -/
def splitLines : List Char → List (List Char)
  | [] => [[]]
  | c :: rest =>
    if c = '\n' then [] :: splitLines rest
    else
      match splitLines rest with
      | [] => [[c]]
      | l :: ls => (c :: l) :: ls

/-- Rejoin lines with `'\n'` (left inverse of `splitLines`). -/
def joinLines : List (List Char) → List Char
  | [] => []
  | [l] => l
  | l :: l2 :: ls => l ++ '\n' :: joinLines (l2 :: ls)

/-- `pat` is a prefix of `s`. -/
def startsWithL (pat s : List Char) : Bool :=
  List.isPrefixOf pat s

/-- `pat` occurs as a contiguous substring of `s`. -/
def containsSub (pat : List Char) : List Char → Bool
  | [] => startsWithL pat []
  | c :: cs => startsWithL pat (c :: cs) || containsSub pat cs

-- ===========================================================================
-- § 2  fileUtils.ts : safeFilename  (lines 30-49)
-- ===========================================================================

/-- The character class of `safeFilename`'s step 2 regex
`/[\\/:*?"<>|\s]+/g`: Windows-forbidden filename characters plus
whitespace. -/
def isForbiddenOrWs (c : Char) : Bool :=
  ['\\', '/', ':', '*', '?', '"', '<', '>', '|'].contains c || isJsWhitespace c

/-- Step 4 of `safeFilename`, the regex `/^_|_$/g`: removes one leading
and one trailing underscore. -/
def stripLeadUnd : List Char → List Char
  | [] => []
  | c :: rest => if c = '_' then rest else c :: rest

def stripTrailUnd : List Char → List Char
  | [] => []
  | [c] => if c = '_' then [] else [c]
  | c :: c2 :: rest => c :: stripTrailUnd (c2 :: rest)

/-- `safeFilename` from fileUtils.ts lines 30-49, on character lists:
trim; replace runs of forbidden/whitespace characters by `'_'`;
collapse runs of underscores; strip one leading and one trailing
underscore; truncate to 120 characters; fall back to `"untitled"` when
empty. -/
def safeFilenameL (s : List Char) : List Char :=
  let r :=
    (stripTrailUnd (stripLeadUnd
      (replaceRuns (fun c => c = '_') '_'
        (replaceRuns isForbiddenOrWs '_' (jsTrimL s))))).take 120
  if r = [] then "untitled".data else r

def safeFilename (s : String) : String := ⟨safeFilenameL s.data⟩

/-- `true` iff the list ends in an underscore. -/
def endsWithUnd (l : List Char) : Bool :=
  match l.getLast? with
  | some c => c = '_'
  | none => false

/-- `true` iff the list nowhere contains two consecutive underscores. -/
def noDoubleUnd : List Char → Bool
  | [] => true
  | [_] => true
  | a :: b :: t => (!(a == '_' && b == '_')) && noDoubleUnd (b :: t)

-- ===========================================================================
-- § 3  parser.ts : code-macro → Markdown fence  (lines 159-182)
-- ===========================================================================

/-- Line 166 of parser.ts: `(body || '').replace(/\r\n/g, '\n').trimEnd()`. -/
def normalizeCode (body : List Char) : List Char :=
  jsTrimEndL (normCrlf body)

def fenceChars : List Char := "```".data

/-- Lines 167-169 of parser.ts: the fenced block built for one code
macro (`\n⋯fence⋯language\n⋯code⋯\n⋯fence⋯\n`). -/
def mdCodeBlock (language code : List Char) : List Char :=
  if language = [] then
    ['\n'] ++ fenceChars ++ ['\n'] ++ code ++ ['\n'] ++ fenceChars ++ ['\n']
  else
    ['\n'] ++ fenceChars ++ language ++ ['\n'] ++ code ++ ['\n'] ++ fenceChars ++ ['\n']

/-- `confluenceCodeMacroToFence` (parser.ts lines 159-182) specialised to a
page body that consists of exactly one well-formed code macro whose CDATA
body is `body` and whose language parameter is `lang` (so `body` contains
no CDATA terminator).  On such input the regex captures `(lang, body)`,
the macro is replaced by the placeholder
`<span>CODEBLOCKPLACEHOLDER0ENDCODEBLOCK</span>`, the HTML→Markdown
conversion of that lone span yields the bare placeholder text, and the
final splice substitutes the fenced block back, so the function's output
is exactly the fenced block. -/
def confluenceCodeMacroToFence_single (lang body : List Char) : List Char :=
  mdCodeBlock (jsTrimL lang) (normalizeCode body)

/-- Modelled from the spec: the fenced-content extractor that the spec's
round-trip property quantifies over ("translating to a Markdown fence and
extracting the fenced content").  No extractor exists in the source; this
takes the content between the first fence-opening line and the next
fence line. -/
def specExtractFencedContent (md : List Char) : List Char :=
  match (splitLines md).dropWhile (fun l => !startsWithL fenceChars l) with
  | [] => []
  | _opening :: rest => joinLines (rest.takeWhile (fun l => !startsWithL fenceChars l))

-- ===========================================================================
-- § 4  parser.ts : escapeHtml, encodeURIComponent, view-file macro
-- ===========================================================================

/-- `escapeHtml` (parser.ts lines 79-86): five sequential global
replacements. -/
def escapeHtmlL (s : List Char) : List Char :=
  replaceCharAll (Char.ofNat 39) "&#039;".data
    (replaceCharAll '"' "&quot;".data
      (replaceCharAll '>' "&gt;".data
        (replaceCharAll '<' "&lt;".data
          (replaceCharAll '&' "&amp;".data s))))

def uriHexDigit (n : Nat) : Char :=
  if n < 10 then Char.ofNat (48 + n) else Char.ofNat (55 + n)

/-- UTF-8 byte sequence of a code point. -/
def utf8Bytes (n : Nat) : List Nat :=
  if n < 0x80 then [n]
  else if n < 0x800 then
    [0xc0 + n / 0x40, 0x80 + n % 0x40]
  else if n < 0x10000 then
    [0xe0 + n / 0x1000, 0x80 + (n / 0x40) % 0x40, 0x80 + n % 0x40]
  else
    [0xf0 + n / 0x40000, 0x80 + (n / 0x1000) % 0x40,
     0x80 + (n / 0x40) % 0x40, 0x80 + n % 0x40]

/-- Characters that JavaScript's `encodeURIComponent` leaves unescaped. -/
def isUriUnreserved (c : Char) : Bool :=
  c.isAlpha || c.isDigit ||
    ['-', '_', '.', '!', '~', '*', Char.ofNat 39, '(', ')'].contains c

/-- JavaScript `encodeURIComponent` (used at parser.ts line 236). -/
def encodeURIComponentL (s : List Char) : List Char :=
  s.flatMap (fun c =>
    if isUriUnreserved c then [c]
    else (utf8Bytes c.toNat).flatMap
      (fun b => ['%', uriHexDigit (b / 16), uriHexDigit (b % 16)]))

/-- The replacement produced by `convertViewFileMacro` (parser.ts lines
233-239) for one view-file macro with attachment filename `filename`:
`<a href="{attachmentsPath}/{encodeURIComponent(filename)}"
class="attachment-link">📎 {escapeHtml(filename)}</a>`. -/
def convertViewFileMacro_single (filename attachmentsPath : List Char) : List Char :=
  "<a href=\"".data ++ attachmentsPath ++ ['/'] ++ encodeURIComponentL filename ++
    "\" class=\"attachment-link\">📎 ".data ++ escapeHtmlL filename ++ "</a>".data

/-- What `processConfluenceHtmlForPdf` (parser.ts lines 272-282) renders a
view-file macro into: line 279 calls `convertViewFileMacro` with the
relative path `'./attachments'`. -/
def pdfViewFileRender (filename : List Char) : List Char :=
  convertViewFileMacro_single filename "./attachments".data

/-- What `processConfluenceHtml` (parser.ts lines 242-251) renders a
view-file macro into: line 248 calls `convertViewFileMacro` with the
caller-supplied attachments path. -/
def htmlViewFileRender (filename attachmentsPath : List Char) : List Char :=
  convertViewFileMacro_single filename attachmentsPath

-- ===========================================================================
-- § 5  treeBuilder.ts : buildTree (lines 83-152), getTreeStats (169-232)
-- ===========================================================================

/-- The `Page` record of types/confluence.ts.  `body` models the presence
and value of `body?.storage?.value`; `parentType` is kept as a plain
string because `buildTree` reads it through `page.parentType || ''`. -/
structure Page where
  id : String
  title : String
  spaceId : String
  parentId : Option String
  parentType : String
  status : String
  createdAt : String
  body : Option String
deriving DecidableEq

/-- The `TreeNode` interface of treeBuilder.ts
(id, title, parentId, parentType, status, createdAt, children). -/
inductive Node : Type where
  | mk : String → String → Option String → String → String → String →
         List Node → Node

def Node.id : Node → String
  | .mk i _ _ _ _ _ _ => i

def Node.title : Node → String
  | .mk _ t _ _ _ _ _ => t

def Node.children : Node → List Node
  | .mk _ _ _ _ _ _ cs => cs

/-- The `Tree` interface of treeBuilder.ts. -/
structure Tree where
  spaceId : String
  spaceName : String
  totalPages : Nat
  children : List Node

/-- A value of the `pageMap` built in step 1 of `buildTree`
(a `TreeNode` before any child has been attached). -/
structure Entry where
  id : String
  title : String
  parentId : Option String
  parentType : String
  status : String
  createdAt : String
deriving DecidableEq

/-- The `Page → TreeNode` conversion of buildTree lines 91-99. -/
def toEntry (p : Page) : Entry :=
  ⟨p.id, p.title, p.parentId, p.parentType, p.status, p.createdAt⟩

/-- JavaScript `Map.set`: an existing key keeps its insertion position
but gets the new value; a new key is appended. -/
def mapSet (m : List Entry) (e : Entry) : List Entry :=
  if m.any (fun x => x.id = e.id) then
    m.map (fun x => if x.id = e.id then e else x)
  else m ++ [e]

/-- Step 1 of `buildTree` (lines 86-101): insert every page with a truthy
(non-empty) id into the map, in input order. -/
def buildEntries (pages : List Page) : List Entry :=
  pages.foldl (fun m p => if p.id = "" then m else mapSet m (toEntry p)) []

/-- The classification of step 2 of `buildTree` (lines 106-121):
`none` means the node goes to the roots list (space-parented, null
parent, or unresolvable/falsy parentId); `some q` means the node is
pushed onto the children of the map entry with id `q`. -/
def parentKey (S : List Entry) (e : Entry) : Option String :=
  if e.parentType = "space" ∨ e.parentId = none then none
  else
    match e.parentId with
    | none => none
    | some q => if q ≠ "" ∧ S.any (fun x => x.id = q) then some q else none

/-- The children pushed (in map order) onto the entry with id `i`. -/
def childEntries (S : List Entry) (i : String) : List Entry :=
  S.filter (fun e => parentKey S e = some i)

/-- The entries collected into `rootNodes`, in map order. -/
def rootEntries (S : List Entry) : List Entry :=
  S.filter (fun e => parentKey S e = none)

/-- `children.sort((a, b) => a.title.localeCompare(b.title))`
(buildTree lines 129 and 138), for an arbitrary comparator `cmp`
standing for `localeCompare`.  A consistent comparator makes the
ECMAScript sort produce the unique stable order, which insertion sort
also produces. -/
def sortNodes (cmp : String → String → Int) (l : List Node) : List Node :=
  List.insertionSort (fun a b => cmp a.title b.title ≤ 0) l

/-- Functional model of steps 2-3 of `buildTree`: the node of map entry
`e`, with its children looked up in the map, recursively built, and
sorted (`sortChildren`, lines 127-143).  The fuel argument bounds the
recursion depth; `buildTree` passes the map size, which suffices for
every input whose parent graph is acyclic (a child chain never repeats
an entry). -/
def buildNode (S : List Entry) (cmp : String → String → Int) :
    Nat → Entry → Node
  | 0, e => .mk e.id e.title e.parentId e.parentType e.status e.createdAt []
  | n + 1, e =>
    .mk e.id e.title e.parentId e.parentType e.status e.createdAt
      (sortNodes cmp ((childEntries S e.id).map (buildNode S cmp n)))

/-- `buildTree` (treeBuilder.ts lines 83-152). -/
def buildTree (pages : List Page) (spaceId spaceName : String)
    (cmp : String → String → Int) : Tree :=
  let S := buildEntries pages
  { spaceId := spaceId
    spaceName := spaceName
    totalPages := pages.length
    children := sortNodes cmp ((rootEntries S).map (buildNode S cmp S.length)) }

mutual
/-- `countDepth` (getTreeStats lines 177-185): the depth value of the
deepest leaf under `node`, starting from `currentDepth`. -/
def countDepth : Node → Nat → Nat
  | .mk _ _ _ _ _ _ cs, d => if cs.isEmpty then d else countDepthL cs (d + 1)

/-- `Math.max(...children.map(child => countDepth(child, d)))`. -/
def countDepthL : List Node → Nat → Nat
  | [], _ => 0
  | c :: cs, d => max (countDepth c d) (countDepthL cs d)
end

mutual
/-- The traversal depths recorded by `countNodesByLevel`
(getTreeStats lines 194-206): node `n` visited at level `lvl`
contributes `lvl`, its children contribute at `lvl + 1`. -/
def levelsOf : Node → Nat → List Nat
  | .mk _ _ _ _ _ _ cs, lvl => lvl :: levelsOfL cs (lvl + 1)

def levelsOfL : List Node → Nat → List Nat
  | [], _ => []
  | c :: cs, lvl => levelsOf c lvl ++ levelsOfL cs lvl
end

/-- The `TreeStats` interface; `pagesByLevel` is modelled by its lookup
function (the final contents of the mutated counts record). -/
structure TreeStats where
  totalPages : Nat
  rootPages : Nat
  maxDepth : Nat
  pagesByLevel : Nat → Nat

/-- `getTreeStats` (treeBuilder.ts lines 169-232): each root is measured
with `countDepth(child, 1)` and the running maximum is kept. -/
def getTreeStats (tree : Tree) : TreeStats :=
  { totalPages := tree.totalPages
    rootPages := tree.children.length
    maxDepth := tree.children.foldl (fun acc c => max acc (countDepth c 1)) 0
    pagesByLevel := fun lvl => (tree.children.flatMap (fun c => levelsOf c 1)).count lvl }

mutual
/-- The number of nodes in a subtree: the node itself plus all
descendants (the `countAll` of the spec's sum property). -/
def countAll : Node → Nat
  | .mk _ _ _ _ _ _ cs => 1 + countAllL cs

def countAllL : List Node → Nat
  | [] => 0
  | c :: cs => countAll c + countAllL cs
end

/-- The sum, over all root nodes, of the number of nodes in that root's
subtree. -/
def sumRootCounts (t : Tree) : Nat :=
  (t.children.map countAll).sum

mutual
/-- Modelled from the spec: the number of edges on the longest path from
`node` down to a leaf ("maximum number of edges from a root to any
leaf"). -/
def heightE : Node → Nat
  | .mk _ _ _ _ _ _ cs => if cs.isEmpty then 0 else 1 + heightEL cs

def heightEL : List Node → Nat
  | [] => 0
  | c :: cs => max (heightE c) (heightEL cs)
end

/-- Modelled from the spec: the maximum number of edges on a path from a
root of the forest to any leaf (0 for an empty forest). -/
def specMaxEdges (t : Tree) : Nat :=
  t.children.foldl (fun acc c => max acc (heightE c)) 0

mutual
/-- All nodes of a subtree (the subtree's root first). -/
def flattenN : Node → List Node
  | .mk i t pid pt st ca cs => .mk i t pid pt st ca cs :: flattenL cs

def flattenL : List Node → List Node
  | [] => []
  | c :: cs => flattenN c ++ flattenL cs
end

/-- Every node reachable from the roots of the forest. -/
def allNodes (t : Tree) : List Node :=
  flattenL t.children

-- ===========================================================================
-- § 5b  treeBuilder.ts : derived accessors used in statements
-- ===========================================================================

def Node.parentId : Node → Option String
  | .mk _ _ pid _ _ _ _ => pid

def Node.parentType : Node → String
  | .mk _ _ _ pt _ _ _ => pt

-- ===========================================================================
-- § 6  parser.ts : convertPages (lines 384-501)
-- ===========================================================================

/-- The observable effects of one `convertPages` job, in order:
the `_meta/pages.json` snapshot, the acquisition and release of the
headless-rendering session (`puppeteer.launch` / `browser.close`), and
the per-page attachment download, `meta.json`, `page.html`, `page.md`
and `page.pdf` writes. -/
inductive Event : Type where
  | pagesJson : Event
  | launch : Event
  | close : Event
  | download : String → Event
  | metaJson : String → Event
  | htmlFile : String → Event
  | mdFile : String → Event
  | pdfFile : String → Event
deriving DecidableEq

/-- Events emitted inside the page loop (as opposed to the job-level
snapshot and session events). -/
def isPageEvent : Event → Bool
  | .download _ => true
  | .metaJson _ => true
  | .htmlFile _ => true
  | .mdFile _ => true
  | .pdfFile _ => true
  | _ => false

/-- The `formats` argument of `convertPages`. -/
structure Formats where
  html : Bool
  markdown : Bool
  pdf : Bool
deriving DecidableEq

/-- The `ConvertResult` interface (parser.ts lines 375-382). -/
structure ConvertResult where
  pagesProcessed : Nat
  htmlCount : Nat
  mdCount : Nat
  pdfCount : Nat
  attachmentsDownloaded : Nat
  attachmentsFailed : Nat
deriving DecidableEq

/-- Oracles for the two effectful collaborators of `convertPages`:
`client.downloadAttachments` (which may throw, and whose exception is
not caught by `convertPages`) and the per-page PDF render
(`newPage`/`setContent`/`pdf`/`close`, whose exception the per-page
`try/catch` of lines 465-481 swallows). -/
structure Oracles where
  downloadAttachments : String → Except String (Nat × Nat)
  renderPdf : String → Except String Unit

/-- The mutable job state of the `convertPages` loop: the six counters of
lines 399-404 plus the event log. -/
structure JobState where
  pagesProcessed : Nat
  htmlCount : Nat
  mdCount : Nat
  pdfCount : Nat
  attachmentsDownloaded : Nat
  attachmentsFailed : Nat
  events : List Event
deriving DecidableEq

/-- The state before the page loop: counters zero, `pages.json` written
(line 396), and the rendering session launched iff PDF was requested
(lines 407-411). -/
def initState (formats : Formats) : JobState :=
  ⟨0, 0, 0, 0, 0, 0,
   [Event.pagesJson] ++ (if formats.pdf then [Event.launch] else [])⟩

/-- One iteration of the `for (const page of pages)` loop of
`convertPages` (lines 414-486).  Returns the updated state and
`some err` when the iteration threw (only `downloadAttachments` can
throw; the PDF render failure is caught at lines 479-481 and merely
skips the pdf counter). -/
def processPage (orc : Oracles) (formats : Formats) (st : JobState)
    (p : Page) : JobState × Option String :=
  if p.id = "" then (st, none)
  else
    match orc.downloadAttachments p.id with
    | .error e => (st, some e)
    | .ok dl =>
      let st1 : JobState :=
        { st with
          attachmentsDownloaded := st.attachmentsDownloaded + dl.1
          attachmentsFailed := st.attachmentsFailed + dl.2
          events := st.events ++ [Event.download p.id, Event.metaJson p.id] }
      match p.body with
      | none => ({ st1 with pagesProcessed := st1.pagesProcessed + 1 }, none)
      | some _ =>
        let st2 := if formats.html then
          { st1 with htmlCount := st1.htmlCount + 1,
                     events := st1.events ++ [Event.htmlFile p.id] } else st1
        let st3 := if formats.markdown then
          { st2 with mdCount := st2.mdCount + 1,
                     events := st2.events ++ [Event.mdFile p.id] } else st2
        let st4 := if formats.pdf then
          match orc.renderPdf p.id with
          | .ok _ =>
            { st3 with pdfCount := st3.pdfCount + 1,
                       events := st3.events ++ [Event.pdfFile p.id] }
          | .error _ => st3
          else st3
        ({ st4 with pagesProcessed := st4.pagesProcessed + 1 }, none)

/-- The page loop: runs until the list is exhausted or an iteration
throws. -/
def runPages (orc : Oracles) (formats : Formats) :
    List Page → JobState → JobState × Option String
  | [], st => (st, none)
  | p :: rest, st =>
    match processPage orc formats st p with
    | (st', none) => runPages orc formats rest st'
    | (st', some e) => (st', some e)

/-- `convertPages` (parser.ts lines 384-501).  The `finally` block of
lines 487-491 closes the rendering session on both the normal and the
exceptional exit; `browser` is non-null exactly when `formats.pdf`. -/
def convertPages (orc : Oracles) (pages : List Page) (formats : Formats) :
    Except String ConvertResult × List Event :=
  let r := runPages orc formats pages (initState formats)
  let finalEvents := r.1.events ++ (if formats.pdf then [Event.close] else [])
  match r.2 with
  | none =>
    (.ok ⟨r.1.pagesProcessed, r.1.htmlCount, r.1.mdCount, r.1.pdfCount,
          r.1.attachmentsDownloaded, r.1.attachmentsFailed⟩, finalEvents)
  | some e => (.error e, finalEvents)

/-- Decidability of a bounded quantification over the contents of an
`Option`, used to state acyclicity hypotheses decidably. -/
instance instDecidableForallEqSome {α : Type} (o : Option α) (P : α → Prop)
    [hP : ∀ x, Decidable (P x)] : Decidable (∀ q, o = some q → P q) :=
  match o with
  | none => isTrue (fun _ h => nomatch h)
  | some x =>
    match hP x with
    | isTrue hx => isTrue (fun q h => by cases h; exact hx)
    | isFalse hx => isFalse (fun h => hx (h x rfl))

-- ===========================================================================
-- § 7  Helper lemmas: safeFilename
-- ===========================================================================

theorem mem_of_replaceRunsFlag (p : Char → Bool) (r : Char) :
    ∀ (s : List Char) (flag : Bool) (c : Char),
      c ∈ replaceRunsFlag p r flag s → c = r ∨ (c ∈ s ∧ p c = false) := by
  intro s
  induction s with
  | nil => intro flag c h; simp [replaceRunsFlag] at h
  | cons a t ih =>
    intro flag c h
    by_cases hp : p a = true
    · cases flag with
      | false =>
        simp only [replaceRunsFlag, hp, if_true] at h
        rcases List.mem_cons.1 h with hc | hc
        · exact Or.inl hc
        · rcases ih true c hc with h1 | ⟨h2, h3⟩
          · exact Or.inl h1
          · exact Or.inr ⟨List.mem_cons_of_mem _ h2, h3⟩
      | true =>
        simp only [replaceRunsFlag, hp, if_true] at h
        rcases ih true c h with h1 | ⟨h2, h3⟩
        · exact Or.inl h1
        · exact Or.inr ⟨List.mem_cons_of_mem _ h2, h3⟩
    · simp only [replaceRunsFlag, hp, if_false] at h
      rcases List.mem_cons.1 h with hc | hc
      · subst hc
        exact Or.inr ⟨List.mem_cons_self _ _, by simpa using hp⟩
      · rcases ih false c hc with h1 | ⟨h2, h3⟩
        · exact Or.inl h1
        · exact Or.inr ⟨List.mem_cons_of_mem _ h2, h3⟩

theorem replaceRuns_no_forbidden (s : List Char) :
    ∀ c ∈ replaceRuns isForbiddenOrWs '_' s, isForbiddenOrWs c = false := by
  intro c hc
  rcases mem_of_replaceRunsFlag _ _ s false c hc with h | ⟨_, h⟩
  · subst h; decide
  · exact h

theorem collapse_no_forbidden (s : List Char)
    (hs : ∀ c ∈ s, isForbiddenOrWs c = false) :
    ∀ c ∈ replaceRuns (fun c => c = '_') '_' s, isForbiddenOrWs c = false := by
  intro c hc
  rcases mem_of_replaceRunsFlag _ _ s false c hc with h | ⟨h2, _⟩
  · subst h; decide
  · exact hs c h2

theorem mem_stripLeadUnd (l : List Char) (c : Char) (h : c ∈ stripLeadUnd l) :
    c ∈ l := by
  cases l with
  | nil => simp [stripLeadUnd] at h
  | cons a t =>
    by_cases ha : a = '_'
    · simp only [stripLeadUnd, ha, if_true] at h
      exact List.mem_cons_of_mem _ h
    · simpa only [stripLeadUnd, ha, if_false] using h

theorem mem_stripTrailUnd : ∀ (l : List Char) (c : Char),
    c ∈ stripTrailUnd l → c ∈ l := by
  intro l
  induction l with
  | nil => intro c h; simp [stripTrailUnd] at h
  | cons a t ih =>
    intro c h
    cases t with
    | nil =>
      by_cases ha : a = '_'
      · simp [stripTrailUnd, ha] at h
      · simpa [stripTrailUnd, ha] using h
    | cons b u =>
      simp only [stripTrailUnd] at h
      rcases List.mem_cons.1 h with hc | hc
      · exact hc ▸ List.mem_cons_self _ _
      · exact List.mem_cons_of_mem _ (ih c hc)

theorem safeFilenameL_chars (s : List Char) :
    ∀ c ∈ safeFilenameL s, isForbiddenOrWs c = false := by
  intro c hc
  simp only [safeFilenameL] at hc
  by_cases hr :
      (stripTrailUnd (stripLeadUnd
        (replaceRuns (fun c => c = '_') '_'
          (replaceRuns isForbiddenOrWs '_' (jsTrimL s))))).take 120 = []
  · rw [if_pos hr] at hc
    revert hc
    revert c
    decide
  · rw [if_neg hr] at hc
    have hc1 := (List.take_sublist _ _).mem hc
    have hc2 := mem_stripTrailUnd _ _ hc1
    have hc3 := mem_stripLeadUnd _ _ hc2
    exact collapse_no_forbidden _ (replaceRuns_no_forbidden _) c hc3

theorem safeFilenameL_length (s : List Char) :
    (safeFilenameL s).length ≤ 120 := by
  simp only [safeFilenameL]
  split
  · decide
  · exact List.length_take_le _ _

theorem safeFilenameL_ne_nil (s : List Char) : safeFilenameL s ≠ [] := by
  simp only [safeFilenameL]
  split
  · decide
  · assumption

theorem head_replaceRunsFlag_true (p : Char → Bool) (r : Char) :
    ∀ (s : List Char) (c : Char),
      (replaceRunsFlag p r true s).head? = some c → p c = false := by
  intro s
  induction s with
  | nil => intro c h; simp [replaceRunsFlag] at h
  | cons a t ih =>
    intro c h
    by_cases hp : p a = true
    · simp only [replaceRunsFlag, hp, if_true] at h
      exact ih c h
    · rw [Bool.not_eq_true] at hp
      simp only [replaceRunsFlag, hp, Bool.false_eq_true, if_false,
        List.head?_cons, Option.some.injEq] at h
      subst h
      exact hp

theorem noDoubleUnd_cons_of (a : Char) (t : List Char)
    (h1 : ∀ b, t.head? = some b → ¬(a = '_' ∧ b = '_'))
    (h2 : noDoubleUnd t = true) : noDoubleUnd (a :: t) = true := by
  cases t with
  | nil => rfl
  | cons b u =>
    have hb := h1 b rfl
    cases hab : (a == '_' && b == '_') with
    | false => simp [noDoubleUnd, hab, h2]
    | true =>
      exfalso
      simp only [Bool.and_eq_true, beq_iff_eq] at hab
      exact hb hab

theorem noDoubleUnd_tail (a : Char) (t : List Char)
    (h : noDoubleUnd (a :: t) = true) : noDoubleUnd t = true := by
  cases t with
  | nil => rfl
  | cons b u =>
    simp only [noDoubleUnd, Bool.and_eq_true] at h
    exact h.2

theorem noDoubleUnd_pair (a b : Char) (t : List Char)
    (h : noDoubleUnd (a :: t) = true) (hb : t.head? = some b) :
    ¬(a = '_' ∧ b = '_') := by
  cases t with
  | nil => simp at hb
  | cons c u =>
    simp only [List.head?_cons, Option.some.injEq] at hb
    subst hb
    intro hc
    rw [hc.1, hc.2] at h
    simp [noDoubleUnd] at h

theorem noDoubleUnd_head_ne (t : List Char)
    (h : noDoubleUnd ('_' :: t) = true) : t.head? ≠ some '_' := by
  intro hh
  exact noDoubleUnd_pair '_' '_' t h hh ⟨rfl, rfl⟩

theorem collapse_noDouble : ∀ (s : List Char) (flag : Bool),
    noDoubleUnd (replaceRunsFlag (fun c => c = '_') '_' flag s) = true := by
  intro s
  induction s with
  | nil => intro flag; rfl
  | cons a t ih =>
    intro flag
    by_cases ha : a = '_'
    · cases flag with
      | true =>
        simpa only [replaceRunsFlag, ha, decide_eq_true_eq, if_pos] using ih true
      | false =>
        have hstep : replaceRunsFlag (fun c => c = '_') '_' false (a :: t) =
            '_' :: replaceRunsFlag (fun c => c = '_') '_' true t := by
          simp [replaceRunsFlag, ha]
        rw [hstep]
        apply noDoubleUnd_cons_of
        · intro b hb hcontra
          have := head_replaceRunsFlag_true _ _ t b hb
          simp [hcontra.2] at this
        · exact ih true
    · have hstep : replaceRunsFlag (fun c => c = '_') '_' flag (a :: t) =
          a :: replaceRunsFlag (fun c => c = '_') '_' false t := by
        simp [replaceRunsFlag, ha]
      rw [hstep]
      apply noDoubleUnd_cons_of
      · intro b _ hcontra
        exact ha hcontra.1
      · exact ih false

theorem dropWhile_eq_self_of (p : Char → Bool) (l : List Char)
    (h : ∀ c ∈ l, p c = false) : l.dropWhile p = l := by
  cases l with
  | nil => rfl
  | cons a t => simp [List.dropWhile_cons, h a (List.mem_cons_self a t)]

theorem jsTrimL_eq_self (l : List Char)
    (h : ∀ c ∈ l, isJsWhitespace c = false) : jsTrimL l = l := by
  unfold jsTrimL
  rw [dropWhile_eq_self_of _ _ h,
      dropWhile_eq_self_of _ _ (fun c hc => h c (List.mem_reverse.1 hc)),
      List.reverse_reverse]

theorem replaceRunsFlag_eq_self (p : Char → Bool) (r : Char) :
    ∀ (l : List Char) (flag : Bool), (∀ c ∈ l, p c = false) →
      replaceRunsFlag p r flag l = l := by
  intro l
  induction l with
  | nil => intro flag _; rfl
  | cons a t ih =>
    intro flag h
    have ha := h a (List.mem_cons_self a t)
    have hstep : replaceRunsFlag p r flag (a :: t) =
        a :: replaceRunsFlag p r false t := by
      simp [replaceRunsFlag, ha]
    rw [hstep, ih false (fun c hc => h c (List.mem_cons_of_mem _ hc))]

theorem collapse_eq_self : ∀ (l : List Char) (flag : Bool),
    noDoubleUnd l = true → (flag = true → l.head? ≠ some '_') →
    replaceRunsFlag (fun c => c = '_') '_' flag l = l := by
  intro l
  induction l with
  | nil => intro flag _ _; rfl
  | cons a t ih =>
    intro flag hnd hflag
    by_cases ha : a = '_'
    · subst ha
      cases flag with
      | true =>
        exact absurd (show ('_' :: t).head? = some '_' from rfl) (hflag rfl)
      | false =>
        have hstep : replaceRunsFlag (fun c => c = '_') '_' false ('_' :: t) =
            '_' :: replaceRunsFlag (fun c => c = '_') '_' true t := by
          simp [replaceRunsFlag]
        rw [hstep, ih true (noDoubleUnd_tail _ _ hnd)
          (fun _ => noDoubleUnd_head_ne t hnd)]
    · have hstep : replaceRunsFlag (fun c => c = '_') '_' flag (a :: t) =
          a :: replaceRunsFlag (fun c => c = '_') '_' false t := by
        simp [replaceRunsFlag, ha]
      rw [hstep, ih false (noDoubleUnd_tail _ _ hnd) (fun h => nomatch h)]

theorem stripLeadUnd_eq_self (l : List Char) (h : l.head? ≠ some '_') :
    stripLeadUnd l = l := by
  cases l with
  | nil => rfl
  | cons a t =>
    have ha : ¬(a = '_') := fun hx => h (by simp [hx])
    simp [stripLeadUnd, ha]

theorem stripTrailUnd_eq_self : ∀ (l : List Char),
    l.getLast? ≠ some '_' → stripTrailUnd l = l := by
  intro l
  induction l with
  | nil => intro _; rfl
  | cons a t ih =>
    intro h
    cases t with
    | nil =>
      have ha : ¬(a = '_') := fun hx => h (by simp [hx])
      simp [stripTrailUnd, ha]
    | cons b u =>
      have := ih (by simpa [List.getLast?_cons_cons] using h)
      simp [stripTrailUnd, this]

theorem head_stripLeadUnd_ne (l : List Char) (hnd : noDoubleUnd l = true) :
    (stripLeadUnd l).head? ≠ some '_' := by
  cases l with
  | nil => simp [stripLeadUnd]
  | cons a t =>
    by_cases ha : a = '_'
    · subst ha
      simpa [stripLeadUnd] using noDoubleUnd_head_ne t hnd
    · simp [stripLeadUnd, ha]

theorem head?_stripTrailUnd : ∀ (l : List Char),
    (stripTrailUnd l).head? = l.head? ∨ stripTrailUnd l = [] := by
  intro l
  cases l with
  | nil => exact Or.inr rfl
  | cons a t =>
    cases t with
    | nil =>
      by_cases ha : a = '_'
      · exact Or.inr (by simp [stripTrailUnd, ha])
      · exact Or.inl (by simp [stripTrailUnd, ha])
    | cons b u => exact Or.inl (by simp [stripTrailUnd])

theorem head?_take_some (n : Nat) (l : List Char) (b : Char)
    (h : (l.take n).head? = some b) : l.head? = some b := by
  cases n with
  | zero => simp at h
  | succ m =>
    cases l with
    | nil => simp at h
    | cons a t => simpa using h

theorem noDoubleUnd_stripLead (l : List Char) (h : noDoubleUnd l = true) :
    noDoubleUnd (stripLeadUnd l) = true := by
  cases l with
  | nil => rfl
  | cons a t =>
    by_cases ha : a = '_'
    · simpa [stripLeadUnd, ha] using noDoubleUnd_tail _ _ h
    · simpa [stripLeadUnd, ha] using h

theorem noDoubleUnd_stripTrail : ∀ (l : List Char),
    noDoubleUnd l = true → noDoubleUnd (stripTrailUnd l) = true := by
  intro l
  induction l with
  | nil => intro _; rfl
  | cons a t ih =>
    intro h
    cases t with
    | nil =>
      by_cases ha : a = '_' <;> simp [stripTrailUnd, ha, noDoubleUnd]
    | cons b u =>
      have htail := ih (noDoubleUnd_tail _ _ h)
      simp only [stripTrailUnd]
      apply noDoubleUnd_cons_of _ _ _ htail
      intro c hc
      rcases head?_stripTrailUnd (b :: u) with heq | hnil
      · rw [heq] at hc
        exact noDoubleUnd_pair a c (b :: u) h hc
      · rw [hnil] at hc
        simp at hc

theorem noDoubleUnd_take : ∀ (l : List Char) (n : Nat),
    noDoubleUnd l = true → noDoubleUnd (l.take n) = true := by
  intro l
  induction l with
  | nil => intro n _; simp [noDoubleUnd]
  | cons a t ih =>
    intro n h
    cases n with
    | zero => rfl
    | succ m =>
      simp only [List.take_succ_cons]
      apply noDoubleUnd_cons_of _ _ _ (ih m (noDoubleUnd_tail _ _ h))
      intro b hb
      exact noDoubleUnd_pair a b t h (head?_take_some m t b hb)

theorem endsWithUnd_false (l : List Char) (h : endsWithUnd l = false) :
    l.getLast? ≠ some '_' := by
  intro hl
  unfold endsWithUnd at h
  rw [hl] at h
  simp at h

theorem ws_imp_forbidden (c : Char) (h : isJsWhitespace c = true) :
    isForbiddenOrWs c = true := by
  simp [isForbiddenOrWs, h]

/-- Any list that is already in sanitized shape (no forbidden characters,
no doubled, leading, or trailing underscore, length at most 120,
non-empty) is a fixpoint of `safeFilenameL`. -/
theorem safeFilenameL_of_props (y : List Char)
    (hA : ∀ c ∈ y, isForbiddenOrWs c = false)
    (hB : noDoubleUnd y = true)
    (hC : y.head? ≠ some '_')
    (hD : y.length ≤ 120)
    (hE : y.getLast? ≠ some '_')
    (hne : y ≠ []) :
    safeFilenameL y = y := by
  have hWs : ∀ c ∈ y, isJsWhitespace c = false := by
    intro c hc
    cases hjs : isJsWhitespace c with
    | false => rfl
    | true =>
      have := ws_imp_forbidden c hjs
      rw [hA c hc] at this
      exact absurd this (by simp)
  have h1 : jsTrimL y = y := jsTrimL_eq_self y hWs
  have h2 : replaceRuns isForbiddenOrWs '_' y = y :=
    replaceRunsFlag_eq_self _ _ y false hA
  have h3 : replaceRuns (fun c => c = '_') '_' y = y :=
    collapse_eq_self y false hB (fun hx => nomatch hx)
  have h4 : stripLeadUnd y = y := stripLeadUnd_eq_self y hC
  have h5 : stripTrailUnd y = y := stripTrailUnd_eq_self y hE
  have h6 : y.take 120 = y := List.take_of_length_le hD
  simp only [safeFilenameL, h1, h2, h3, h4, h5, h6]
  rw [if_neg hne]

/-- Core of the amended C5: `safeFilename` is a fixpoint on its own
output whenever that output does not end in an underscore. -/
theorem safeFilenameL_fix (s : List Char)
    (h : endsWithUnd (safeFilenameL s) = false) :
    safeFilenameL (safeFilenameL s) = safeFilenameL s := by
  by_cases hr :
      (stripTrailUnd (stripLeadUnd
        (replaceRuns (fun c => c = '_') '_'
          (replaceRuns isForbiddenOrWs '_' (jsTrimL s))))).take 120 = []
  · have hy : safeFilenameL s = "untitled".data := by
      simp only [safeFilenameL]
      rw [if_pos hr]
    rw [hy]
    decide
  · have hy : safeFilenameL s =
        (stripTrailUnd (stripLeadUnd
          (replaceRuns (fun c => c = '_') '_'
            (replaceRuns isForbiddenOrWs '_' (jsTrimL s))))).take 120 := by
      simp only [safeFilenameL]
      rw [if_neg hr]
    have hA : ∀ c ∈ safeFilenameL s, isForbiddenOrWs c = false :=
      safeFilenameL_chars s
    have hB : noDoubleUnd (safeFilenameL s) = true := by
      rw [hy]
      exact noDoubleUnd_take _ _
        (noDoubleUnd_stripTrail _ (noDoubleUnd_stripLead _
          (collapse_noDouble _ false)))
    have hC : (safeFilenameL s).head? ≠ some '_' := by
      rw [hy]
      intro hh
      have h4 := head?_take_some _ _ _ hh
      rcases head?_stripTrailUnd (stripLeadUnd
          (replaceRuns (fun c => c = '_') '_'
            (replaceRuns isForbiddenOrWs '_' (jsTrimL s)))) with heq | hnil
      · rw [heq] at h4
        exact head_stripLeadUnd_ne _ (collapse_noDouble _ false) h4
      · rw [hnil] at h4
        simp at h4
    have hD : (safeFilenameL s).length ≤ 120 := safeFilenameL_length s
    have hE : (safeFilenameL s).getLast? ≠ some '_' := endsWithUnd_false _ h
    have hne : safeFilenameL s ≠ [] := safeFilenameL_ne_nil s
    exact safeFilenameL_of_props _ hA hB hC hD hE hne

-- ===========================================================================
-- § 7b  Helper lemmas: line splitting and the fenced-block extractor
-- ===========================================================================

theorem splitLines_ne_nil : ∀ (s : List Char), splitLines s ≠ [] := by
  intro s
  induction s with
  | nil => simp [splitLines]
  | cons c rest ih =>
    simp only [splitLines]
    split
    · simp
    · split
      · simp
      · simp

theorem splitLines_append_nl : ∀ (xs ys : List Char),
    splitLines (xs ++ '\n' :: ys) = splitLines xs ++ splitLines ys := by
  intro xs
  induction xs with
  | nil => intro ys; simp [splitLines]
  | cons a xs' ih =>
    intro ys
    by_cases ha : a = '\n'
    · subst ha
      show splitLines ('\n' :: (xs' ++ '\n' :: ys)) = _
      simp [splitLines, ih ys]
    · obtain ⟨l, ls, hxs⟩ : ∃ l ls, splitLines xs' = l :: ls := by
        cases h : splitLines xs' with
        | nil => exact absurd h (splitLines_ne_nil xs')
        | cons l ls => exact ⟨l, ls, rfl⟩
      show splitLines (a :: (xs' ++ '\n' :: ys)) = _
      simp [splitLines, ha, ih ys, hxs]

theorem splitLines_no_nl : ∀ (xs : List Char), (∀ c ∈ xs, c ≠ '\n') →
    splitLines xs = [xs] := by
  intro xs
  induction xs with
  | nil => intro _; rfl
  | cons a rest ih =>
    intro h
    have ha : ¬(a = '\n') := h a (List.mem_cons_self a rest)
    have hr := ih (fun c hc => h c (List.mem_cons_of_mem _ hc))
    simp only [splitLines, ha, if_false, hr]

theorem joinLines_splitLines : ∀ (s : List Char),
    joinLines (splitLines s) = s := by
  intro s
  induction s with
  | nil => rfl
  | cons c rest ih =>
    by_cases hc : c = '\n'
    · subst hc
      obtain ⟨l, ls, hr⟩ : ∃ l ls, splitLines rest = l :: ls := by
        cases h : splitLines rest with
        | nil => exact absurd h (splitLines_ne_nil rest)
        | cons l ls => exact ⟨l, ls, rfl⟩
      show joinLines (splitLines ('\n' :: rest)) = _
      simp only [splitLines, if_pos rfl, hr, joinLines]
      rw [← hr, ih]
      rfl
    · obtain ⟨l, ls, hr⟩ : ∃ l ls, splitLines rest = l :: ls := by
        cases h : splitLines rest with
        | nil => exact absurd h (splitLines_ne_nil rest)
        | cons l ls => exact ⟨l, ls, rfl⟩
      show joinLines (splitLines (c :: rest)) = _
      simp only [splitLines, hc, if_false, hr]
      cases ls with
      | nil =>
        simp only [joinLines]
        rw [hr] at ih
        simp only [joinLines] at ih
        rw [ih]
      | cons l2 ls' =>
        simp only [joinLines, List.cons_append]
        rw [hr] at ih
        simp only [joinLines] at ih
        rw [ih]

theorem takeWhile_append_of {α : Type} (p : α → Bool) :
    ∀ (xs : List α) (y : α) (ys : List α), (∀ x ∈ xs, p x = true) →
      p y = false → (xs ++ y :: ys).takeWhile p = xs := by
  intro xs
  induction xs with
  | nil =>
    intro y ys _ hy
    simp [List.takeWhile_cons, hy]
  | cons a xs' ih =>
    intro y ys hxs hy
    have ha := hxs a (List.mem_cons_self a xs')
    simp only [List.cons_append, List.takeWhile_cons, ha, if_true]
    rw [ih y ys (fun x hx => hxs x (List.mem_cons_of_mem _ hx)) hy]

theorem dropWhile_append_of {α : Type} (p : α → Bool) :
    ∀ (xs : List α) (y : α) (ys : List α), (∀ x ∈ xs, p x = true) →
      p y = false → (xs ++ y :: ys).dropWhile p = y :: ys := by
  intro xs
  induction xs with
  | nil =>
    intro y ys _ hy
    simp [List.dropWhile_cons, hy]
  | cons a xs' ih =>
    intro y ys hxs hy
    have ha := hxs a (List.mem_cons_self a xs')
    simp only [List.cons_append, List.dropWhile_cons, ha, if_true]
    exact ih y ys (fun x hx => hxs x (List.mem_cons_of_mem _ hx)) hy

theorem startsWith_fence_append (L : List Char) :
    startsWithL fenceChars (fenceChars ++ L) = true :=
  List.isPrefixOf_iff_prefix.2 ⟨L, rfl⟩

theorem fence_no_nl : ∀ c ∈ fenceChars, c ≠ '\n' := by decide

theorem extract_fence_block (L C : List Char)
    (hC : ∀ l ∈ splitLines C, startsWithL fenceChars l = false)
    (hL : ∀ c ∈ L, c ≠ '\n') :
    specExtractFencedContent
      (['\n'] ++ fenceChars ++ L ++ ['\n'] ++ C ++ ['\n'] ++ fenceChars ++ ['\n']) = C := by
  have hblock : ['\n'] ++ fenceChars ++ L ++ ['\n'] ++ C ++ ['\n'] ++ fenceChars ++ ['\n'] =
      ([] : List Char) ++ '\n' ::
        ((fenceChars ++ L) ++ '\n' :: (C ++ '\n' :: (fenceChars ++ '\n' :: []))) := by
    simp
  rw [hblock]
  unfold specExtractFencedContent
  rw [splitLines_append_nl, splitLines_append_nl, splitLines_append_nl,
    splitLines_append_nl]
  have hfl : splitLines (fenceChars ++ L) = [fenceChars ++ L] := by
    apply splitLines_no_nl
    intro c hc
    rcases List.mem_append.1 hc with h | h
    · exact fence_no_nl c h
    · exact hL c h
  have hf : splitLines fenceChars = [fenceChars] := by decide
  rw [hfl, hf]
  show (match
      (([[]] ++ ([fenceChars ++ L] ++ (splitLines C ++ ([fenceChars] ++ [[]])))).dropWhile
        (fun l => !startsWithL fenceChars l)) with
    | [] => []
    | _opening :: rest => joinLines (rest.takeWhile (fun l => !startsWithL fenceChars l))) = C
  have hdrop : (([[]] ++ ([fenceChars ++ L] ++ (splitLines C ++ ([fenceChars] ++ [[]])))).dropWhile
      (fun l => !startsWithL fenceChars l)) =
      (fenceChars ++ L) :: (splitLines C ++ ([fenceChars] ++ [[]])) := by
    have : ([[]] ++ ([fenceChars ++ L] ++ (splitLines C ++ ([fenceChars] ++ [[]])))) =
        [([] : List Char)] ++ (fenceChars ++ L) :: (splitLines C ++ ([fenceChars] ++ [[]])) := by
      simp
    rw [this]
    apply dropWhile_append_of
    · intro x hx
      simp only [List.mem_singleton] at hx
      subst hx
      decide
    · simp [startsWith_fence_append]
  rw [hdrop]
  show joinLines ((splitLines C ++ ([fenceChars] ++ [[]])).takeWhile
    (fun l => !startsWithL fenceChars l)) = C
  have htake : (splitLines C ++ ([fenceChars] ++ [[]])).takeWhile
      (fun l => !startsWithL fenceChars l) = splitLines C := by
    have : splitLines C ++ ([fenceChars] ++ [[]]) =
        splitLines C ++ fenceChars :: [[]] := by simp
    rw [this]
    apply takeWhile_append_of
    · intro x hx
      simp [hC x hx]
    · decide
  rw [htake, joinLines_splitLines]

-- ===========================================================================
-- § 7c  Claim C1: code-macro fence round-trip
-- ===========================================================================

/-- C1 (counterexample): the round-trip fails for a code body that itself
contains a triple-backtick line (a case the claim explicitly includes):
extraction stops at the embedded fence and returns only the first part
of the body. -/
theorem c1_counterexample :
    specExtractFencedContent
      (confluenceCodeMacroToFence_single "x".data "a\n```\nb".data) ≠
      normalizeCode "a\n```\nb".data := by decide

/-- C1 (amended): for every code body `B` whose normalized form contains
no line starting with a triple backtick and every language `L` whose
trimmed form contains no newline, translating the code macro to a
Markdown fence and extracting the fenced content returns `B` with
exactly CRLF→LF normalization and trailing-whitespace removal applied. -/
theorem c1_roundTrip (lang body : List Char)
    (hbody : ∀ l ∈ splitLines (normalizeCode body),
      startsWithL fenceChars l = false)
    (hlang : ∀ c ∈ jsTrimL lang, c ≠ '\n') :
    specExtractFencedContent (confluenceCodeMacroToFence_single lang body) =
      normalizeCode body := by
  unfold confluenceCodeMacroToFence_single mdCodeBlock
  by_cases hL0 : jsTrimL lang = []
  · rw [if_pos hL0]
    have := extract_fence_block [] (normalizeCode body) hbody (by simp)
    simpa using this
  · rw [if_neg hL0]
    exact extract_fence_block (jsTrimL lang) (normalizeCode body) hbody hlang

theorem c1_roundTrip_witness :
    (∀ l ∈ splitLines (normalizeCode "print(1)\r\n".data),
      startsWithL fenceChars l = false) ∧
    (∀ c ∈ jsTrimL " python ".data, c ≠ '\n') ∧
    specExtractFencedContent
      (confluenceCodeMacroToFence_single " python ".data "print(1)\r\n".data) =
      normalizeCode "print(1)\r\n".data :=
  ⟨by decide, by decide,
   c1_roundTrip " python ".data "print(1)\r\n".data (by decide) (by decide)⟩

-- ===========================================================================
-- § 8  Claim C5: safeFilename idempotence
-- ===========================================================================

/-- C5 (counterexample): `safeFilename` is not idempotent.  On the
121-character input `a…a_b` (119 `a`s), the cleaned string has length
121, so truncation to 120 characters leaves a trailing underscore that
a second application then strips. -/
theorem c5_counterexample :
    safeFilename (safeFilename ⟨List.replicate 119 'a' ++ ['_', 'b']⟩) ≠
      safeFilename ⟨List.replicate 119 'a' ++ ['_', 'b']⟩ := by decide

/-- C5 (amended): `safeFilename` is idempotent on every input whose
sanitized output does not end in an underscore — in particular on every
input whose cleaned form is at most 120 characters long.  (A trailing
underscore can only be produced by the final truncation.) -/
theorem c5_idempotent (x : String)
    (h : endsWithUnd (safeFilename x).data = false) :
    safeFilename (safeFilename x) = safeFilename x := by
  have hfix := safeFilenameL_fix x.data h
  show (⟨safeFilenameL (safeFilenameL x.data)⟩ : String) = ⟨safeFilenameL x.data⟩
  rw [hfix]

theorem c5_idempotent_witness :
    endsWithUnd (safeFilename "My Page: Overview").data = false ∧
    safeFilename (safeFilename "My Page: Overview") = safeFilename "My Page: Overview" :=
  ⟨by decide, c5_idempotent "My Page: Overview" (by decide)⟩

-- ===========================================================================
-- § 9  Claim C8: safeFilename output bounds
-- ===========================================================================

/-- C8: for every input string, `safeFilename` returns a string of length
at most 120, never empty, containing none of the filesystem-forbidden
characters `\ / : * ? " < > |` and no whitespace.  (Totality holds by
construction: the Lean embedding is a total function, mirroring the
`(s || '')` guard and side-effect-free body of the source.) -/
theorem c8_safeFilename_bounds (x : String) :
    (safeFilename x).length ≤ 120 ∧ safeFilename x ≠ "" ∧
      ∀ c ∈ (safeFilename x).data, isForbiddenOrWs c = false := by
  refine ⟨safeFilenameL_length x.data, ?_, safeFilenameL_chars x.data⟩
  intro h
  have hdata : safeFilenameL x.data = [] := by
    have := congrArg String.data h
    simpa [safeFilename] using this
  exact safeFilenameL_ne_nil x.data hdata

-- ===========================================================================
-- § 10  Claim C4: view-file macro rendering in PDF mode
-- ===========================================================================

/-- C4 (counterexample): for the concrete view-file target `doc.pdf`, the
PDF pipeline (`processConfluenceHtmlForPdf`, which hands the macro to
`convertViewFileMacro` with path `./attachments`) produces a clickable
`<a href=...>` anchor — not non-interactive text with a path
annotation — contradicting the claim's PDF-mode behaviour. -/
theorem c4_counterexample :
    pdfViewFileRender "doc.pdf".data =
      "<a href=\"./attachments/doc.pdf\" class=\"attachment-link\">📎 doc.pdf</a>".data ∧
    containsSub "<a href=".data (pdfViewFileRender "doc.pdf".data) = true := by
  constructor
  · decide
  · decide

/-- C4 (amended): in PDF mode every view-file macro with target filename
`F` is rendered exactly as in HTML/preview mode with the relative path
`./attachments`: a clickable anchor (`<a href="./attachments/...">`) with
file icon and escaped filename label. -/
theorem c4_pdf_viewFile_is_link (filename : List Char) :
    pdfViewFileRender filename = htmlViewFileRender filename "./attachments".data ∧
    startsWithL "<a href=\"./attachments/".data (pdfViewFileRender filename) = true := by
  refine ⟨rfl, ?_⟩
  unfold startsWithL
  apply List.isPrefixOf_iff_prefix.2
  refine ⟨encodeURIComponentL filename ++
    ("\" class=\"attachment-link\">📎 ".data ++ (escapeHtmlL filename ++ "</a>".data)), ?_⟩
  have hsplit : "<a href=\"./attachments/".data =
      "<a href=\"".data ++ ("./attachments".data ++ ['/']) := by decide
  rw [hsplit]
  simp [pdfViewFileRender, convertViewFileMacro_single, List.append_assoc]

-- ===========================================================================
-- § 11  Helper lemmas: the tree builder
-- ===========================================================================

theorem buildNode_id (S : List Entry) (cmp : String → String → Int) :
    ∀ (n : Nat) (e : Entry), (buildNode S cmp n e).id = e.id := by
  intro n e
  cases n <;> rfl

theorem sortNodes_perm (cmp : String → String → Int) (l : List Node) :
    (sortNodes cmp l).Perm l :=
  List.perm_insertionSort _ l

theorem countAllL_eq_sum (l : List Node) :
    countAllL l = (l.map countAll).sum := by
  induction l with
  | nil => rfl
  | cons c cs ih => simp [countAllL, ih]

theorem countAllL_sortNodes (cmp : String → String → Int) (l : List Node) :
    countAllL (sortNodes cmp l) = countAllL l := by
  rw [countAllL_eq_sum, countAllL_eq_sum]
  exact ((sortNodes_perm cmp l).map countAll).sum_eq

theorem mem_flattenL (l : List Node) (nd : Node) :
    nd ∈ flattenL l ↔ ∃ c ∈ l, nd ∈ flattenN c := by
  induction l with
  | nil => simp [flattenL]
  | cons c cs ih => simp [flattenL, List.mem_append, ih]

-- ===========================================================================
-- § 12  Claim C3: maxDepth counts nodes, not edges
-- ===========================================================================

theorem countDepth_eq_heightE :
    ∀ (nd : Node) (d : Nat), countDepth nd d = d + heightE nd := by
  refine countDepth.induct (fun nd d => countDepth nd d = d + heightE nd)
    (fun cs d => cs ≠ [] → countDepthL cs d = d + heightEL cs) ?_ ?_ ?_ ?_
  · intro i t pid pt st ca cs d hcs
    have : cs = [] := by simpa using hcs
    subst this
    simp [countDepth, heightE]
  · intro i t pid pt st ca cs d hcs ih
    have hne : cs ≠ [] := by simpa using hcs
    have hcs' : cs.isEmpty = false := by simpa using hcs
    simp only [countDepth, heightE, hcs', Bool.false_eq_true, if_false]
    rw [ih hne]
    omega
  · intro d h
    exact absurd rfl h
  · intro c cs d ih1 ih2 _
    cases cs with
    | nil => simp [countDepthL, heightEL, ih1]
    | cons c2 cs' =>
      rw [show countDepthL (c :: c2 :: cs') d =
        max (countDepth c d) (countDepthL (c2 :: cs') d) from rfl]
      rw [ih1, ih2 (by simp)]
      simp [heightEL]
      omega

theorem foldl_countDepth (l : List Node) : ∀ (acc : Nat),
    l.foldl (fun a c => max a (countDepth c 1)) acc =
      (l.map (fun c => 1 + heightE c)).foldl max acc := by
  induction l with
  | nil => intro acc; rfl
  | cons c cs ih =>
    intro acc
    show cs.foldl (fun a c => max a (countDepth c 1)) (max acc (countDepth c 1)) =
      (cs.map (fun c => 1 + heightE c)).foldl max (max acc (1 + heightE c))
    rw [countDepth_eq_heightE c 1]
    exact ih _

/-- C3 (counterexample): a forest with a single childless root has
`maxDepth = 1` while the maximum number of edges from a root to a leaf
is `0`, so `maxDepth` is not the edge count the claim states. -/
theorem c3_counterexample :
    (getTreeStats (buildTree [⟨"1", "A", "sp", none, "space", "current", "", none⟩]
      "sp" "S" (fun _ _ => 0))).maxDepth ≠
    specMaxEdges (buildTree [⟨"1", "A", "sp", none, "space", "current", "", none⟩]
      "sp" "S" (fun _ _ => 0)) := by decide

/-- C3 (amended): `getTreeStats` returns `maxDepth` equal to the maximum,
over the forest's roots, of one plus the number of edges on the longest
root-to-leaf path (the node count of the longest path; `0` for an empty
forest). -/
theorem c3_maxDepth (pages : List Page) (sid sname : String)
    (cmp : String → String → Int) :
    (getTreeStats (buildTree pages sid sname cmp)).maxDepth =
      ((buildTree pages sid sname cmp).children.map
        (fun c => 1 + heightE c)).foldl max 0 := by
  simp only [getTreeStats]
  exact foldl_countDepth _ 0

-- ===========================================================================
-- § 13  Claim C7: sibling ordering
-- ===========================================================================

theorem sorted_sortNodes (cmp : String → String → Int)
    (htr : ∀ a b c : String, cmp a b ≤ 0 → cmp b c ≤ 0 → cmp a c ≤ 0)
    (hto : ∀ a b : String, cmp a b ≤ 0 ∨ cmp b a ≤ 0) (l : List Node) :
    List.Sorted (fun a b : Node => cmp a.title b.title ≤ 0) (sortNodes cmp l) := by
  haveI : IsTotal Node (fun a b : Node => cmp a.title b.title ≤ 0) :=
    ⟨fun a b => hto a.title b.title⟩
  haveI : IsTrans Node (fun a b : Node => cmp a.title b.title ≤ 0) :=
    ⟨fun a b c h1 h2 => htr a.title b.title c.title h1 h2⟩
  exact List.sorted_insertionSort _ l

theorem sorted_children_buildNode (S : List Entry) (cmp : String → String → Int)
    (htr : ∀ a b c : String, cmp a b ≤ 0 → cmp b c ≤ 0 → cmp a c ≤ 0)
    (hto : ∀ a b : String, cmp a b ≤ 0 ∨ cmp b a ≤ 0) :
    ∀ (n : Nat) (e : Entry), ∀ nd ∈ flattenN (buildNode S cmp n e),
      List.Sorted (fun a b : Node => cmp a.title b.title ≤ 0) nd.children := by
  intro n
  induction n with
  | zero =>
    intro e nd hnd
    simp only [buildNode, flattenN, flattenL] at hnd
    simp only [List.mem_singleton] at hnd
    subst hnd
    exact List.sorted_nil
  | succ n' ih =>
    intro e nd hnd
    simp only [buildNode, flattenN] at hnd
    rcases List.mem_cons.1 hnd with h | h
    · subst h
      exact sorted_sortNodes cmp htr hto _
    · rcases (mem_flattenL _ _).1 h with ⟨c, hc, hcnd⟩
      have hc' := (sortNodes_perm cmp _).mem_iff.1 hc
      rcases List.mem_map.1 hc' with ⟨d, _, hd⟩
      subst hd
      exact ih d nd hcnd

/-- C7: in the tree returned by `buildTree`, the roots list and the
children list of every reachable node are sorted under the sibling
comparator (locale comparison modelled as any consistent comparator:
transitive and total in the `≤ 0` sense).  Ties are not broken further:
the sort is stable, which the statement leaves unconstrained. -/
theorem c7_sorted (pages : List Page) (sid sname : String)
    (cmp : String → String → Int)
    (htr : ∀ a b c : String, cmp a b ≤ 0 → cmp b c ≤ 0 → cmp a c ≤ 0)
    (hto : ∀ a b : String, cmp a b ≤ 0 ∨ cmp b a ≤ 0) :
    List.Sorted (fun a b : Node => cmp a.title b.title ≤ 0)
      (buildTree pages sid sname cmp).children ∧
    ∀ nd ∈ allNodes (buildTree pages sid sname cmp),
      List.Sorted (fun a b : Node => cmp a.title b.title ≤ 0) nd.children := by
  constructor
  · exact sorted_sortNodes cmp htr hto _
  · intro nd hnd
    rcases (mem_flattenL _ _).1 hnd with ⟨c, hc, hcnd⟩
    have hc' := (sortNodes_perm cmp _).mem_iff.1 hc
    rcases List.mem_map.1 hc' with ⟨r, _, hr⟩
    subst hr
    exact sorted_children_buildNode _ cmp htr hto _ r nd hcnd

theorem c7_sorted_witness :
    List.Sorted (fun a b : Node => (fun _ _ : String => (0 : Int)) a.title b.title ≤ 0)
      (buildTree
        [⟨"1", "B", "sp", none, "space", "current", "", none⟩,
         ⟨"2", "A", "sp", none, "space", "current", "", none⟩]
        "sp" "S" (fun _ _ => 0)).children :=
  (c7_sorted
    [⟨"1", "B", "sp", none, "space", "current", "", none⟩,
     ⟨"2", "A", "sp", none, "space", "current", "", none⟩]
    "sp" "S" (fun _ _ => 0)
    (fun _ _ _ h1 _ => h1) (fun _ _ => Or.inl (le_refl 0))).1

-- ===========================================================================
-- § 14  Helper lemmas: the page map and the counting argument for C2/C6
-- ===========================================================================

theorem foldl_mapSet_eq : ∀ (pages : List Page) (acc : List Entry),
    (∀ p ∈ pages, p.id ≠ "") →
    (acc.map Entry.id ++ pages.map Page.id).Nodup →
    pages.foldl (fun m p => if p.id = "" then m else mapSet m (toEntry p)) acc =
      acc ++ pages.map toEntry := by
  intro pages
  induction pages with
  | nil => intro acc _ _; simp
  | cons p ps ih =>
    intro acc hid hnd
    have hp : ¬(p.id = "") := hid p (List.mem_cons_self p ps)
    have hdisj : p.id ∉ acc.map Entry.id := by
      intro hmem
      have hdup := List.disjoint_of_nodup_append hnd
      exact hdup hmem (by simp)
    have hnotin : ¬(acc.any (fun x => x.id = (toEntry p).id)) = true := by
      intro hany
      rcases List.any_eq_true.1 hany with ⟨x, hx, hxeq⟩
      exact hdisj (List.mem_map.2 ⟨x, hx, by simpa using hxeq⟩)
    have hms : mapSet acc (toEntry p) = acc ++ [toEntry p] := by
      simp only [mapSet]
      rw [if_neg hnotin]
    simp only [List.foldl_cons, if_neg hp, hms]
    rw [ih (acc ++ [toEntry p]) (fun q hq => hid q (List.mem_cons_of_mem _ hq))
      (by simpa [toEntry] using hnd)]
    simp

theorem buildEntries_eq (pages : List Page)
    (hid : ∀ p ∈ pages, p.id ≠ "")
    (hnd : (pages.map Page.id).Nodup) :
    buildEntries pages = pages.map toEntry := by
  unfold buildEntries
  rw [foldl_mapSet_eq pages [] hid (by simpa using hnd)]
  simp

theorem mem_childEntries (S : List Entry) (i : String) (e : Entry) :
    e ∈ childEntries S i ↔ e ∈ S ∧ parentKey S e = some i := by
  simp [childEntries, List.mem_filter]

theorem parentKey_mem_ids (S : List Entry) (e : Entry) (q : String)
    (h : parentKey S e = some q) : q ∈ S.map Entry.id := by
  unfold parentKey at h
  split at h
  · exact absurd h (by simp)
  · split at h
    · exact absurd h (by simp)
    · rename_i p _
      split at h
      · rename_i hcond
        have : p = q := by simpa using h
        subst this
        rcases List.any_eq_true.1 hcond.2 with ⟨x, hx, hxeq⟩
        exact List.mem_map.2 ⟨x, hx, by simpa using hxeq⟩
      · exact absurd h (by simp)

theorem sum_map_zero {α : Type} (l : List α) :
    (l.map (fun _ => (0 : Nat))).sum = 0 := by
  induction l with
  | nil => rfl
  | cons a t ih => simp

theorem sum_map_one_add {α : Type} (g : α → Nat) : ∀ (l : List α),
    (l.map (fun e => 1 + g e)).sum = l.length + (l.map g).sum := by
  intro l
  induction l with
  | nil => rfl
  | cons a t ih =>
    simp only [List.map_cons, List.sum_cons, ih, List.length_cons]
    omega

theorem sum_map_add {α : Type} (f g : α → Nat) (l : List α) :
    (l.map (fun x => f x + g x)).sum = (l.map f).sum + (l.map g).sum := by
  induction l with
  | nil => rfl
  | cons a t ih =>
    simp only [List.map_cons, List.sum_cons, ih]
    omega

theorem sum_swap {α β : Type} (l₁ : List α) (l₂ : List β) (g : α → β → Nat) :
    (l₁.map (fun a => (l₂.map (g a)).sum)).sum =
      (l₂.map (fun b => (l₁.map (fun a => g a b)).sum)).sum := by
  induction l₁ with
  | nil => simp [sum_map_zero]
  | cons a l₁' ih =>
    simp only [List.map_cons, List.sum_cons, ih]
    rw [← sum_map_add]

theorem sum_filter_ite {α : Type} (p : α → Bool) (f : α → Nat) (l : List α) :
    ((l.filter p).map f).sum = (l.map (fun x => if p x then f x else 0)).sum := by
  induction l with
  | nil => rfl
  | cons a t ih =>
    cases ha : p a with
    | true => simp [List.filter_cons, ha, ih]
    | false => simp [List.filter_cons, ha, ih]

theorem sum_ite_zero (l : List Entry) (q : String) (c : Nat)
    (h : ∀ x ∈ l, x.id ≠ q) :
    (l.map (fun e => if e.id = q then c else 0)).sum = 0 := by
  induction l with
  | nil => rfl
  | cons a t ih =>
    have ha := h a (List.mem_cons_self a t)
    simp only [List.map_cons, List.sum_cons, if_neg ha]
    simpa using ih (fun x hx => h x (List.mem_cons_of_mem _ hx))

theorem sum_ite_id_unique : ∀ (l : List Entry) (q : String) (c : Nat),
    (l.map Entry.id).Nodup → q ∈ l.map Entry.id →
    (l.map (fun e => if e.id = q then c else 0)).sum = c := by
  intro l
  induction l with
  | nil => intro q c _ hq; simp at hq
  | cons a t ih =>
    intro q c hnd hq
    by_cases ha : a.id = q
    · simp only [List.map_cons, List.sum_cons, if_pos ha]
      have hnotin : ∀ x ∈ t, x.id ≠ q := by
        intro x hx hxq
        have : a.id ∈ t.map Entry.id := by
          rw [ha, ← hxq]
          exact List.mem_map.2 ⟨x, hx, rfl⟩
        exact (List.nodup_cons.1 hnd).1 this
      rw [sum_ite_zero t q c hnotin]
      omega
    · simp only [List.map_cons, List.sum_cons, if_neg ha]
      have hq' : q ∈ t.map Entry.id := by
        rcases List.mem_map.1 hq with ⟨x, hx, hxq⟩
        rcases List.mem_cons.1 hx with h | h
        · exact absurd (h ▸ hxq) ha
        · exact List.mem_map.2 ⟨x, h, hxq⟩
      simpa using ih q c (List.nodup_cons.1 hnd).2 hq'

theorem sum_filter_split {α : Type} (p : α → Bool) (f : α → Nat) (l : List α) :
    (l.map f).sum =
      ((l.filter p).map f).sum + ((l.filter (fun x => !p x)).map f).sum := by
  induction l with
  | nil => rfl
  | cons a t ih =>
    cases ha : p a with
    | true =>
      simp only [List.filter_cons, ha, Bool.not_true, Bool.false_eq_true,
        if_true, if_false, List.map_cons, List.sum_cons]
      omega
    | false =>
      simp only [List.filter_cons, ha, Bool.not_false, Bool.false_eq_true,
        if_true, if_false, List.map_cons, List.sum_cons]
      omega

theorem buildNode_stable (S : List Entry) (cmp : String → String → Int)
    (rank : String → Nat)
    (hrank : ∀ e ∈ S, ∀ q, parentKey S e = some q → rank q < rank e.id)
    (hbound : ∀ e ∈ S, rank e.id < S.length) :
    ∀ (k : Nat), ∀ e ∈ S, S.length - rank e.id ≤ k →
      ∀ n m, S.length - rank e.id ≤ n → S.length - rank e.id ≤ m →
        buildNode S cmp n e = buildNode S cmp m e := by
  intro k
  induction k using Nat.strong_induction_on with
  | _ k ih =>
    intro e he hk n m hn hm
    have hb := hbound e he
    have hμ : 1 ≤ S.length - rank e.id := by omega
    cases n with
    | zero => omega
    | succ n' =>
      cases m with
      | zero => omega
      | succ m' =>
        show Node.mk e.id e.title e.parentId e.parentType e.status e.createdAt
            (sortNodes cmp ((childEntries S e.id).map (buildNode S cmp n'))) =
          Node.mk e.id e.title e.parentId e.parentType e.status e.createdAt
            (sortNodes cmp ((childEntries S e.id).map (buildNode S cmp m')))
        have hmap : (childEntries S e.id).map (buildNode S cmp n') =
            (childEntries S e.id).map (buildNode S cmp m') := by
          apply List.map_congr_left
          intro d hd
          rcases (mem_childEntries S e.id d).1 hd with ⟨hdS, hdpk⟩
          have hlt := hrank d hdS e.id hdpk
          have hbd := hbound d hdS
          exact ih (k - 1) (by omega) d hdS (by omega) n' m' (by omega) (by omega)
        rw [hmap]

theorem buildNode_unfold (S : List Entry) (cmp : String → String → Int)
    (rank : String → Nat)
    (hrank : ∀ e ∈ S, ∀ q, parentKey S e = some q → rank q < rank e.id)
    (hbound : ∀ e ∈ S, rank e.id < S.length)
    (e : Entry) (he : e ∈ S) :
    buildNode S cmp S.length e =
      Node.mk e.id e.title e.parentId e.parentType e.status e.createdAt
        (sortNodes cmp ((childEntries S e.id).map (buildNode S cmp S.length))) := by
  have hb := hbound e he
  obtain ⟨n', hn'⟩ : ∃ n', S.length = n' + 1 := by
    cases hS : S.length with
    | zero => omega
    | succ k => exact ⟨k, rfl⟩
  rw [hn']
  show Node.mk e.id e.title e.parentId e.parentType e.status e.createdAt
      (sortNodes cmp ((childEntries S e.id).map (buildNode S cmp n'))) = _
  have hmap : (childEntries S e.id).map (buildNode S cmp n') =
      (childEntries S e.id).map (buildNode S cmp (n' + 1)) := by
    apply List.map_congr_left
    intro d hd
    rcases (mem_childEntries S e.id d).1 hd with ⟨hdS, hdpk⟩
    have hlt := hrank d hdS e.id hdpk
    have hbd := hbound d hdS
    exact buildNode_stable S cmp rank hrank hbound (S.length - rank d.id) d hdS
      (le_refl _) n' (n' + 1) (by omega) (by omega)
  rw [hmap]

theorem countAll_buildNode (S : List Entry) (cmp : String → String → Int)
    (rank : String → Nat)
    (hrank : ∀ e ∈ S, ∀ q, parentKey S e = some q → rank q < rank e.id)
    (hbound : ∀ e ∈ S, rank e.id < S.length)
    (e : Entry) (he : e ∈ S) :
    countAll (buildNode S cmp S.length e) =
      1 + ((childEntries S e.id).map
        (fun d => countAll (buildNode S cmp S.length d))).sum := by
  conv =>
    lhs
    rw [buildNode_unfold S cmp rank hrank hbound e he]
  show 1 + countAllL (sortNodes cmp ((childEntries S e.id).map (buildNode S cmp S.length))) = _
  rw [countAllL_sortNodes, countAllL_eq_sum, List.map_map]
  rfl

theorem sum_root_counts (S : List Entry) (cmp : String → String → Int)
    (rank : String → Nat)
    (hrank : ∀ e ∈ S, ∀ q, parentKey S e = some q → rank q < rank e.id)
    (hbound : ∀ e ∈ S, rank e.id < S.length)
    (hnd : (S.map Entry.id).Nodup) :
    ((rootEntries S).map (fun e => countAll (buildNode S cmp S.length e))).sum =
      S.length := by
  have hrec : ∀ e ∈ S,
      countAll (buildNode S cmp S.length e) =
        1 + ((childEntries S e.id).map
          (fun d => countAll (buildNode S cmp S.length d))).sum :=
    fun e he => countAll_buildNode S cmp rank hrank hbound e he
  have hA : (S.map (fun e => countAll (buildNode S cmp S.length e))).sum =
      S.length + (S.map (fun e => ((childEntries S e.id).map
        (fun d => countAll (buildNode S cmp S.length d))).sum)).sum := by
    rw [List.map_congr_left (fun e he => hrec e he)]
    rw [show S.map (fun e => 1 + ((childEntries S e.id).map
        (fun d => countAll (buildNode S cmp S.length d))).sum) =
      S.map (fun e => 1 + ((fun e => ((childEntries S e.id).map
        (fun d => countAll (buildNode S cmp S.length d))).sum) e)) from rfl]
    rw [sum_map_one_add]
  have hB : (S.map (fun e => ((childEntries S e.id).map
      (fun d => countAll (buildNode S cmp S.length d))).sum)).sum =
      ((S.filter (fun d => !(decide (parentKey S d = none)))).map
        (fun d => countAll (buildNode S cmp S.length d))).sum := by
    have h1 : ∀ e ∈ S, ((childEntries S e.id).map
        (fun d => countAll (buildNode S cmp S.length d))).sum =
        (S.map (fun d => if decide (parentKey S d = some e.id) = true
          then countAll (buildNode S cmp S.length d) else 0)).sum := by
      intro e _
      unfold childEntries
      rw [sum_filter_ite]
    rw [List.map_congr_left h1]
    rw [sum_swap S S (fun e d => if decide (parentKey S d = some e.id) = true
      then countAll (buildNode S cmp S.length d) else 0)]
    rw [sum_filter_ite]
    apply congrArg
    apply List.map_congr_left
    intro d hdS
    cases hpk : parentKey S d with
    | none =>
      rw [show (S.map (fun e => if decide ((none : Option String) = some e.id) = true
          then countAll (buildNode S cmp S.length d) else 0)) =
        S.map (fun _ => 0) from List.map_congr_left (by
          intro e _
          simp)]
      rw [sum_map_zero]
      simp
    | some q =>
      have hq := parentKey_mem_ids S d q hpk
      rw [show (S.map (fun e => if decide (some q = some e.id) = true
          then countAll (buildNode S cmp S.length d) else 0)) =
        S.map (fun e => if e.id = q
          then countAll (buildNode S cmp S.length d) else 0) from
        List.map_congr_left (by
          intro e _
          by_cases he : e.id = q
          · rw [he]
            simp
          · rw [if_neg he, if_neg]
            simp only [decide_eq_true_eq, Option.some.injEq]
            intro h
            exact he h.symm)]
      rw [sum_ite_id_unique S q _ hnd hq]
      simp
  have hsplit : (S.map (fun e => countAll (buildNode S cmp S.length e))).sum =
      ((S.filter (fun e => decide (parentKey S e = none))).map
        (fun e => countAll (buildNode S cmp S.length e))).sum +
      ((S.filter (fun e => !(decide (parentKey S e = none)))).map
        (fun e => countAll (buildNode S cmp S.length e))).sum :=
    sum_filter_split _ _ S
  have hroot : rootEntries S = S.filter (fun e => decide (parentKey S e = none)) := rfl
  rw [hroot]
  omega

-- ===========================================================================
-- § 15  Claim C2: sum of root subtree sizes equals totalPages
-- ===========================================================================

/-- C2 (counterexample): a page with an empty (falsy) id is counted in
`totalPages` but never enters the page map, so the forest is empty and
the subtree-size sum is `0 ≠ 1`. -/
theorem c2_counterexample :
    sumRootCounts (buildTree [⟨"", "T", "sp", none, "space", "current", "", none⟩]
      "sp" "S" (fun _ _ => 0)) ≠
    (buildTree [⟨"", "T", "sp", none, "space", "current", "", none⟩]
      "sp" "S" (fun _ _ => 0)).totalPages := by decide

/-- C2 (amended): for every page list whose ids are non-empty and
pairwise distinct and whose parent graph is acyclic (witnessed by a rank
function, bounded by the number of pages, that strictly decreases from
any node to its resolved parent), the sum over all roots of the number
of nodes in that root's subtree equals `totalPages`. -/
theorem c2_sum (pages : List Page) (sid sname : String)
    (cmp : String → String → Int) (rank : String → Nat)
    (hid : ∀ p ∈ pages, p.id ≠ "")
    (hnd : (pages.map Page.id).Nodup)
    (hrank : ∀ e ∈ buildEntries pages, ∀ q,
      parentKey (buildEntries pages) e = some q → rank q < rank e.id)
    (hbound : ∀ e ∈ buildEntries pages, rank e.id < pages.length) :
    sumRootCounts (buildTree pages sid sname cmp) =
      (buildTree pages sid sname cmp).totalPages := by
  have hS := buildEntries_eq pages hid hnd
  have hlen : (buildEntries pages).length = pages.length := by
    rw [hS, List.length_map]
  have hnd' : ((buildEntries pages).map Entry.id).Nodup := by
    rw [hS, List.map_map]
    exact hnd
  have hbound' : ∀ e ∈ buildEntries pages, rank e.id < (buildEntries pages).length := by
    intro e he
    rw [hlen]
    exact hbound e he
  show ((sortNodes cmp ((rootEntries (buildEntries pages)).map
      (buildNode (buildEntries pages) cmp (buildEntries pages).length))).map
        countAll).sum = pages.length
  rw [((sortNodes_perm cmp _).map countAll).sum_eq, List.map_map]
  rw [show (countAll ∘ buildNode (buildEntries pages) cmp (buildEntries pages).length) =
    (fun e => countAll (buildNode (buildEntries pages) cmp
      (buildEntries pages).length e)) from rfl]
  rw [sum_root_counts (buildEntries pages) cmp rank hrank hbound' hnd']
  exact hlen

theorem c2_sum_witness :
    sumRootCounts (buildTree
      [⟨"1", "A", "sp", none, "space", "current", "", none⟩,
       ⟨"2", "B", "sp", some "1", "page", "current", "", none⟩]
      "sp" "S" (fun _ _ => 0)) =
    (buildTree
      [⟨"1", "A", "sp", none, "space", "current", "", none⟩,
       ⟨"2", "B", "sp", some "1", "page", "current", "", none⟩]
      "sp" "S" (fun _ _ => 0)).totalPages :=
  c2_sum
    [⟨"1", "A", "sp", none, "space", "current", "", none⟩,
     ⟨"2", "B", "sp", some "1", "page", "current", "", none⟩]
    "sp" "S" (fun _ _ => 0) (fun s => if s = "1" then 0 else 1)
    (by decide) (by decide) (by decide) (by decide)

-- ===========================================================================
-- § 16  Helper lemmas: node placement for C6
-- ===========================================================================

theorem countP_id_unique : ∀ (l : List Entry) (p : Entry) (P : Entry → Bool),
    (l.map Entry.id).Nodup → p ∈ l →
    l.countP (fun d => decide (d.id = p.id) && P d) = if P p then 1 else 0 := by
  intro l
  induction l with
  | nil => intro p P _ hp; simp at hp
  | cons a t ih =>
    intro p P hnd hp
    rcases List.mem_cons.1 hp with heq | hpt
    · subst heq
      rw [List.countP_cons]
      have hzero : t.countP (fun d => decide (d.id = p.id) && P d) = 0 := by
        rw [List.countP_eq_zero]
        intro d hd
        have hne : d.id ≠ p.id := by
          intro hdp
          apply (List.nodup_cons.1 hnd).1
          rw [← hdp]
          exact List.mem_map.2 ⟨d, hd, rfl⟩
        simp [hne]
      rw [hzero]
      cases hP : P p with
      | true => simp [hP]
      | false => simp [hP]
    · rw [List.countP_cons]
      have hane : a.id ≠ p.id := by
        intro heq
        apply (List.nodup_cons.1 hnd).1
        rw [heq]
        exact List.mem_map.2 ⟨p, hpt, rfl⟩
      rw [ih p P (List.nodup_cons.1 hnd).2 hpt]
      simp [hane]

theorem mem_flattenN_buildNode (S : List Entry) (cmp : String → String → Int)
    (rank : String → Nat)
    (hrank : ∀ e ∈ S, ∀ q, parentKey S e = some q → rank q < rank e.id)
    (hbound : ∀ e ∈ S, rank e.id < S.length) :
    ∀ (n : Nat) (e : Entry), e ∈ S → S.length - rank e.id ≤ n →
      ∀ nd ∈ flattenN (buildNode S cmp n e),
        ∃ e', e' ∈ S ∧ ∃ m, S.length - rank e'.id ≤ m ∧
          nd = buildNode S cmp m e' := by
  intro n
  induction n with
  | zero =>
    intro e he hμ nd _
    have := hbound e he
    omega
  | succ n' ih =>
    intro e he hμ nd hnd
    simp only [buildNode, flattenN] at hnd
    rcases List.mem_cons.1 hnd with h | h
    · exact ⟨e, he, n' + 1, hμ, h⟩
    · rcases (mem_flattenL _ _).1 h with ⟨c, hc, hcnd⟩
      have hc' := (sortNodes_perm cmp _).mem_iff.1 hc
      rcases List.mem_map.1 hc' with ⟨d, hd, hdc⟩
      subst hdc
      rcases (mem_childEntries _ _ _).1 hd with ⟨hdS, hdpk⟩
      have hlt := hrank d hdS e.id hdpk
      have hbd := hbound d hdS
      exact ih d hdS (by omega) nd hcnd

theorem roots_countP (S : List Entry) (cmp : String → String → Int)
    (hnd : (S.map Entry.id).Nodup) (p : Entry) (hp : p ∈ S)
    (hpk : parentKey S p = none) :
    ((sortNodes cmp ((rootEntries S).map (buildNode S cmp S.length))).countP
      (fun nd => nd.id = p.id)) = 1 := by
  rw [List.Perm.countP_eq _ (sortNodes_perm cmp _), List.countP_map]
  rw [List.countP_congr (q := fun e => decide (e.id = p.id)) (by
    intro e _
    simp only [Function.comp_apply, buildNode_id, decide_eq_true_eq])]
  unfold rootEntries
  rw [List.countP_filter]
  rw [countP_id_unique S p _ hnd hp]
  simp [hpk]

theorem children_countP (S : List Entry) (cmp : String → String → Int)
    (rank : String → Nat)
    (hbound : ∀ e ∈ S, rank e.id < S.length)
    (hnd : (S.map Entry.id).Nodup) (p : Entry) (hp : p ∈ S)
    (q : String) (hpk : parentKey S p = some q) :
    ∀ (m : Nat) (e' : Entry), e' ∈ S → S.length - rank e'.id ≤ m → e'.id = q →
      ((buildNode S cmp m e').children.countP (fun c => c.id = p.id)) = 1 := by
  intro m e' he' hμ hidq
  have hb := hbound e' he'
  cases m with
  | zero => omega
  | succ m'' =>
    show ((sortNodes cmp ((childEntries S e'.id).map (buildNode S cmp m''))).countP
      (fun c => c.id = p.id)) = 1
    rw [List.Perm.countP_eq _ (sortNodes_perm cmp _), List.countP_map]
    rw [List.countP_congr (q := fun d => decide (d.id = p.id)) (by
      intro d _
      simp only [Function.comp_apply, buildNode_id, decide_eq_true_eq])]
    rw [hidq]
    unfold childEntries
    rw [List.countP_filter]
    rw [countP_id_unique S p _ hnd hp]
    simp [hpk]

theorem parentKey_none_of (S : List Entry) (e : Entry)
    (h : e.parentType = "space" ∨ e.parentId = none) : parentKey S e = none := by
  unfold parentKey
  rw [if_pos h]

theorem parentKey_some_of (S : List Entry) (e : Entry) (q : String)
    (hpt : e.parentType ≠ "space") (hpid : e.parentId = some q)
    (hq : q ≠ "") (hany : S.any (fun x => x.id = q) = true) :
    parentKey S e = some q := by
  unfold parentKey
  rw [if_neg (by
    intro hcon
    rcases hcon with h | h
    · exact hpt h
    · rw [hpid] at h
      exact nomatch h)]
  rw [hpid]
  show (if q ≠ "" ∧ (S.any fun x => x.id = q) = true then some q else none) = some q
  rw [if_pos ⟨hq, hany⟩]

theorem parentKey_none_unresolved (S : List Entry) (e : Entry) (q : String)
    (hpt : e.parentType ≠ "space") (hpid : e.parentId = some q)
    (hnoany : S.any (fun x => x.id = q) = false) : parentKey S e = none := by
  unfold parentKey
  rw [if_neg (by
    intro hcon
    rcases hcon with h | h
    · exact hpt h
    · rw [hpid] at h
      exact nomatch h)]
  rw [hpid]
  show (if q ≠ "" ∧ (S.any fun x => x.id = q) = true then some q else none) = none
  rw [if_neg (by
    intro hcon
    rw [hnoany] at hcon
    exact nomatch hcon.2)]

-- ===========================================================================
-- § 17  Claim C6: root and child placement
-- ===========================================================================

/-- C6 (counterexample): a page with an empty (falsy) id and
`parentType = "space"` is skipped by the page map, so it never appears in
the roots list, contradicting the claim's universal placement rule. -/
theorem c6_counterexample :
    (⟨"", "T", "sp", none, "space", "current", "", none⟩ : Page).parentType
      = "space" ∧
    ((buildTree [⟨"", "T", "sp", none, "space", "current", "", none⟩]
      "sp" "S" (fun _ _ => 0)).children.countP (fun nd => nd.id = "")) = 0 := by
  constructor
  · rfl
  · decide

/-- C6 (amended): for every page list with non-empty, pairwise-distinct
ids whose parent graph is acyclic (rank-witnessed as in C2), the tree
built by `buildTree` places (i) every page whose `parentType` is
`"space"` or whose `parentId` is null exactly once in the roots list;
(ii) every other page whose `parentId` matches an input id exactly once
in the children list of every reachable node carrying the parent's id;
and (iii) every other page whose `parentId` resolves to no input page
exactly once in the roots list (orphan fallback). -/
theorem c6_placement (pages : List Page) (sid sname : String)
    (cmp : String → String → Int) (rank : String → Nat)
    (hid : ∀ p ∈ pages, p.id ≠ "")
    (hnd : (pages.map Page.id).Nodup)
    (hrank : ∀ e ∈ buildEntries pages, ∀ q,
      parentKey (buildEntries pages) e = some q → rank q < rank e.id)
    (hbound : ∀ e ∈ buildEntries pages, rank e.id < pages.length) :
    (∀ p ∈ pages, (p.parentType = "space" ∨ p.parentId = none) →
      ((buildTree pages sid sname cmp).children.countP
        (fun nd => nd.id = p.id)) = 1) ∧
    (∀ p ∈ pages, p.parentType ≠ "space" → ∀ q, p.parentId = some q →
      (∃ p' ∈ pages, p'.id = q) →
      ∀ nd ∈ allNodes (buildTree pages sid sname cmp), nd.id = q →
        (nd.children.countP (fun c => c.id = p.id)) = 1) ∧
    (∀ p ∈ pages, p.parentType ≠ "space" → ∀ q, p.parentId = some q →
      (∀ p' ∈ pages, p'.id ≠ q) →
      ((buildTree pages sid sname cmp).children.countP
        (fun nd => nd.id = p.id)) = 1) := by
  have hS := buildEntries_eq pages hid hnd
  have hlen : (buildEntries pages).length = pages.length := by
    rw [hS, List.length_map]
  have hnd' : ((buildEntries pages).map Entry.id).Nodup := by
    rw [hS, List.map_map]
    exact hnd
  have hbound' : ∀ e ∈ buildEntries pages,
      rank e.id < (buildEntries pages).length := by
    intro e he
    rw [hlen]
    exact hbound e he
  have hmem : ∀ p ∈ pages, toEntry p ∈ buildEntries pages := by
    intro p hp
    rw [hS]
    exact List.mem_map.2 ⟨p, hp, rfl⟩
  refine ⟨?_, ?_, ?_⟩
  · intro p hp hcond
    have hpk : parentKey (buildEntries pages) (toEntry p) = none :=
      parentKey_none_of _ _ hcond
    exact roots_countP (buildEntries pages) cmp hnd' (toEntry p) (hmem p hp) hpk
  · intro p hp hpt q hpid hex nd hnd2 hndq
    rcases hex with ⟨p', hp', hp'q⟩
    have hq : q ≠ "" := by
      rw [← hp'q]
      exact hid p' hp'
    have hany : (buildEntries pages).any (fun x => x.id = q) = true := by
      apply List.any_eq_true.2
      exact ⟨toEntry p', hmem p' hp', by simpa using hp'q⟩
    have hpk : parentKey (buildEntries pages) (toEntry p) = some q :=
      parentKey_some_of _ _ q hpt hpid hq hany
    rcases (mem_flattenL _ _).1 hnd2 with ⟨c, hc, hcnd⟩
    have hc' := (sortNodes_perm cmp _).mem_iff.1 hc
    rcases List.mem_map.1 hc' with ⟨r, hr, hrc⟩
    subst hrc
    have hrS : r ∈ buildEntries pages := List.mem_of_mem_filter hr
    rcases mem_flattenN_buildNode (buildEntries pages) cmp rank hrank hbound'
        (buildEntries pages).length r hrS
        (by have := hbound' r hrS; omega) nd hcnd with
      ⟨e', he', m, hm, hnde⟩
    subst hnde
    rw [buildNode_id] at hndq
    exact children_countP (buildEntries pages) cmp rank hbound' hnd'
      (toEntry p) (hmem p hp) q hpk m e' he' hm hndq
  · intro p hp hpt q hpid hnores
    have hnoany : (buildEntries pages).any (fun x => x.id = q) = false := by
      cases hA : (buildEntries pages).any (fun x => x.id = q) with
      | false => rfl
      | true =>
        exfalso
        rcases List.any_eq_true.1 hA with ⟨x, hx, hxq⟩
        rw [hS] at hx
        rcases List.mem_map.1 hx with ⟨p', hp', hp'x⟩
        apply hnores p' hp'
        rw [← hp'x] at hxq
        simpa using hxq
    have hpk : parentKey (buildEntries pages) (toEntry p) = none :=
      parentKey_none_unresolved _ _ q hpt hpid hnoany
    exact roots_countP (buildEntries pages) cmp hnd' (toEntry p) (hmem p hp) hpk

theorem c6_placement_witness :
    ((buildTree
      [⟨"1", "A", "sp", none, "space", "current", "", none⟩,
       ⟨"2", "B", "sp", some "1", "page", "current", "", none⟩,
       ⟨"3", "C", "sp", some "missing", "page", "current", "", none⟩]
      "sp" "S" (fun _ _ => 0)).children.countP (fun nd => nd.id = "1")) = 1 :=
  (c6_placement
    [⟨"1", "A", "sp", none, "space", "current", "", none⟩,
     ⟨"2", "B", "sp", some "1", "page", "current", "", none⟩,
     ⟨"3", "C", "sp", some "missing", "page", "current", "", none⟩]
    "sp" "S" (fun _ _ => 0) (fun s => if s = "1" then 0 else 1)
    (by decide) (by decide) (by decide) (by decide)).1
    ⟨"1", "A", "sp", none, "space", "current", "", none⟩
    (by decide) (Or.inl rfl)

-- ===========================================================================
-- § 18  Helper lemmas: the convertPages loop
-- ===========================================================================

theorem processPage_shape (orc : Oracles) (formats : Formats) (st : JobState)
    (p : Page) :
    ∃ tail, (processPage orc formats st p).1.events = st.events ++ tail ∧
      ∀ e ∈ tail, isPageEvent e = true := by
  unfold processPage
  by_cases hid : p.id = ""
  · rw [if_pos hid]
    exact ⟨[], by simp, by simp⟩
  · rw [if_neg hid]
    cases hdl : orc.downloadAttachments p.id with
    | error e => exact ⟨[], by simp, by simp⟩
    | ok dl =>
      cases hb : p.body with
      | none =>
        refine ⟨[Event.download p.id, Event.metaJson p.id], by simp, ?_⟩
        intro e he
        rcases List.mem_cons.1 he with h | h
        · rw [h]; rfl
        · rcases List.mem_cons.1 h with h2 | h2
          · rw [h2]; rfl
          · simp at h2
      | some body =>
        cases hfh : formats.html <;> cases hfm : formats.markdown <;>
          cases hfp : formats.pdf
        ·
          refine ⟨[Event.download p.id, Event.metaJson p.id], ?_, ?_⟩
          · simp [hfh, hfm, hfp]
          · intro e he
            simp only [List.mem_cons, List.mem_singleton] at he
            rcases he with h | h | h
            · rw [h]; rfl
            · rw [h]; rfl
            · simp at h
        ·
          cases hr : orc.renderPdf p.id with
          | ok u =>
            refine ⟨[Event.download p.id, Event.metaJson p.id, Event.pdfFile p.id],
              ?_, ?_⟩
            · simp [hfh, hfm, hfp, hr]
            · intro e he
              simp only [List.mem_cons, List.mem_singleton] at he
              rcases he with h | h | h | h
              · rw [h]; rfl
              · rw [h]; rfl
              · rw [h]; rfl
              · simp at h
          | error err =>
            refine ⟨[Event.download p.id, Event.metaJson p.id], ?_, ?_⟩
            · simp [hfh, hfm, hfp, hr]
            · intro e he
              simp only [List.mem_cons, List.mem_singleton] at he
              rcases he with h | h | h
              · rw [h]; rfl
              · rw [h]; rfl
              · simp at h
        ·
          refine ⟨[Event.download p.id, Event.metaJson p.id, Event.mdFile p.id],
            ?_, ?_⟩
          · simp [hfh, hfm, hfp]
          · intro e he
            simp only [List.mem_cons, List.mem_singleton] at he
            rcases he with h | h | h | h
            · rw [h]; rfl
            · rw [h]; rfl
            · rw [h]; rfl
            · simp at h
        ·
          cases hr : orc.renderPdf p.id with
          | ok u =>
            refine ⟨[Event.download p.id, Event.metaJson p.id, Event.mdFile p.id,
              Event.pdfFile p.id], ?_, ?_⟩
            · simp [hfh, hfm, hfp, hr]
            · intro e he
              simp only [List.mem_cons, List.mem_singleton] at he
              rcases he with h | h | h | h | h
              · rw [h]; rfl
              · rw [h]; rfl
              · rw [h]; rfl
              · rw [h]; rfl
              · simp at h
          | error err =>
            refine ⟨[Event.download p.id, Event.metaJson p.id, Event.mdFile p.id],
              ?_, ?_⟩
            · simp [hfh, hfm, hfp, hr]
            · intro e he
              simp only [List.mem_cons, List.mem_singleton] at he
              rcases he with h | h | h | h
              · rw [h]; rfl
              · rw [h]; rfl
              · rw [h]; rfl
              · simp at h
        ·
          refine ⟨[Event.download p.id, Event.metaJson p.id, Event.htmlFile p.id],
            ?_, ?_⟩
          · simp [hfh, hfm, hfp]
          · intro e he
            simp only [List.mem_cons, List.mem_singleton] at he
            rcases he with h | h | h | h
            · rw [h]; rfl
            · rw [h]; rfl
            · rw [h]; rfl
            · simp at h
        ·
          cases hr : orc.renderPdf p.id with
          | ok u =>
            refine ⟨[Event.download p.id, Event.metaJson p.id, Event.htmlFile p.id,
              Event.pdfFile p.id], ?_, ?_⟩
            · simp [hfh, hfm, hfp, hr]
            · intro e he
              simp only [List.mem_cons, List.mem_singleton] at he
              rcases he with h | h | h | h | h
              · rw [h]; rfl
              · rw [h]; rfl
              · rw [h]; rfl
              · rw [h]; rfl
              · simp at h
          | error err =>
            refine ⟨[Event.download p.id, Event.metaJson p.id, Event.htmlFile p.id],
              ?_, ?_⟩
            · simp [hfh, hfm, hfp, hr]
            · intro e he
              simp only [List.mem_cons, List.mem_singleton] at he
              rcases he with h | h | h | h
              · rw [h]; rfl
              · rw [h]; rfl
              · rw [h]; rfl
              · simp at h
        ·
          refine ⟨[Event.download p.id, Event.metaJson p.id, Event.htmlFile p.id,
            Event.mdFile p.id], ?_, ?_⟩
          · simp [hfh, hfm, hfp]
          · intro e he
            simp only [List.mem_cons, List.mem_singleton] at he
            rcases he with h | h | h | h | h
            · rw [h]; rfl
            · rw [h]; rfl
            · rw [h]; rfl
            · rw [h]; rfl
            · simp at h
        ·
          cases hr : orc.renderPdf p.id with
          | ok u =>
            refine ⟨[Event.download p.id, Event.metaJson p.id, Event.htmlFile p.id,
              Event.mdFile p.id, Event.pdfFile p.id], ?_, ?_⟩
            · simp [hfh, hfm, hfp, hr]
            · intro e he
              simp only [List.mem_cons, List.mem_singleton] at he
              rcases he with h | h | h | h | h | h
              · rw [h]; rfl
              · rw [h]; rfl
              · rw [h]; rfl
              · rw [h]; rfl
              · rw [h]; rfl
              · simp at h
          | error err =>
            refine ⟨[Event.download p.id, Event.metaJson p.id, Event.htmlFile p.id,
              Event.mdFile p.id], ?_, ?_⟩
            · simp [hfh, hfm, hfp, hr]
            · intro e he
              simp only [List.mem_cons, List.mem_singleton] at he
              rcases he with h | h | h | h | h
              · rw [h]; rfl
              · rw [h]; rfl
              · rw [h]; rfl
              · rw [h]; rfl
              · simp at h

theorem runPages_shape (orc : Oracles) (formats : Formats) :
    ∀ (pages : List Page) (st : JobState),
      ∃ tail, (runPages orc formats pages st).1.events = st.events ++ tail ∧
        ∀ e ∈ tail, isPageEvent e = true := by
  intro pages
  induction pages with
  | nil => intro st; exact ⟨[], by simp [runPages], by simp⟩
  | cons p ps ih =>
    intro st
    rcases processPage_shape orc formats st p with ⟨tail1, h1, h1p⟩
    cases hpp : processPage orc formats st p with
    | mk st' oerr =>
      rw [hpp] at h1
      cases oerr with
      | none =>
        rcases ih st' with ⟨tail2, h2, h2p⟩
        refine ⟨tail1 ++ tail2, ?_, ?_⟩
        · simp only [runPages, hpp]
          rw [h2, h1, List.append_assoc]
        · intro e he
          rcases List.mem_append.1 he with h | h
          · exact h1p e h
          · exact h2p e h
      | some err =>
        refine ⟨tail1, ?_, h1p⟩
        simp only [runPages, hpp]
        exact h1

theorem count_zero_of_pageEvents (tail : List Event)
    (h : ∀ e ∈ tail, isPageEvent e = true) (ev : Event)
    (hev : isPageEvent ev = false) : tail.count ev = 0 := by
  rw [List.count_eq_zero]
  intro hmem
  rw [h ev hmem] at hev
  exact nomatch hev

theorem processPage_skip (orc : Oracles) (formats : Formats) (st : JobState)
    (p : Page) (hpid : p.id = "") :
    processPage orc formats st p = (st, none) := by
  unfold processPage
  rw [if_pos hpid]

theorem processPage_metaOnly (orc : Oracles) (formats : Formats) (st : JobState)
    (p : Page) (hpid : ¬(p.id = "")) (dl : Nat × Nat)
    (hdlp : orc.downloadAttachments p.id = Except.ok dl)
    (hb : p.body = none) :
    processPage orc formats st p =
      ({ st with
          attachmentsDownloaded := st.attachmentsDownloaded + dl.1
          attachmentsFailed := st.attachmentsFailed + dl.2
          events := st.events ++ [Event.download p.id, Event.metaJson p.id]
          pagesProcessed := st.pagesProcessed + 1 }, none) := by
  unfold processPage
  rw [if_neg hpid, hdlp, hb]

theorem processPage_counts (orc : Oracles) (formats : Formats) (st : JobState)
    (p : Page) (hpid : ¬(p.id = "")) (dl : Nat × Nat)
    (hdlp : orc.downloadAttachments p.id = Except.ok dl)
    (b : String) (hb : p.body = some b) :
    (processPage orc formats st p).2 = none ∧
    (processPage orc formats st p).1.pagesProcessed = st.pagesProcessed + 1 ∧
    (processPage orc formats st p).1.pdfCount = st.pdfCount +
      (if formats.pdf && (orc.renderPdf p.id).isOk then 1 else 0) := by
  unfold processPage
  rw [if_neg hpid, hdlp, hb]
  cases hfp : formats.pdf with
  | false =>
    cases hfh : formats.html <;> cases hfm : formats.markdown <;>
      simp [hfh, hfm, hfp]
  | true =>
    cases hr : orc.renderPdf p.id with
    | ok u =>
      cases hfh : formats.html <;> cases hfm : formats.markdown <;>
        simp [hfh, hfm, hfp, hr, Except.isOk, Except.toBool]
    | error err =>
      cases hfh : formats.html <;> cases hfm : formats.markdown <;>
        simp [hfh, hfm, hfp, hr, Except.isOk, Except.toBool]

theorem runPages_metaOnly (orc : Oracles) (formats : Formats)
    (hdl : ∀ pid, ∃ v, orc.downloadAttachments pid = Except.ok v) :
    ∀ (pages : List Page) (st : JobState),
      (∀ p ∈ pages, p.id ≠ "") → (∀ p ∈ pages, p.body = none) →
      ∃ st', runPages orc formats pages st = (st', none) ∧
        st'.pagesProcessed = st.pagesProcessed + pages.length ∧
        st'.htmlCount = st.htmlCount ∧ st'.mdCount = st.mdCount ∧
        st'.pdfCount = st.pdfCount ∧
        ∃ tail, st'.events = st.events ++ tail ∧
          (∀ p ∈ pages, Event.metaJson p.id ∈ tail) ∧
          (∀ e ∈ tail, (∃ pid, e = Event.download pid) ∨
            (∃ pid, e = Event.metaJson pid)) := by
  intro pages
  induction pages with
  | nil =>
    intro st _ _
    refine ⟨st, by simp [runPages], by simp, rfl, rfl, rfl, [], by simp, ?_, ?_⟩
    · intro p hp
      simp at hp
    · intro e he
      simp at he
  | cons p ps ih =>
    intro st hid hbody
    have hpid : p.id ≠ "" := hid p (List.mem_cons_self p ps)
    rcases hdl p.id with ⟨dl, hdlp⟩
    have hb : p.body = none := hbody p (List.mem_cons_self p ps)
    have hpp := processPage_metaOnly orc formats st p hpid dl hdlp hb
    rcases ih ({ st with
        attachmentsDownloaded := st.attachmentsDownloaded + dl.1
        attachmentsFailed := st.attachmentsFailed + dl.2
        events := st.events ++ [Event.download p.id, Event.metaJson p.id]
        pagesProcessed := st.pagesProcessed + 1 })
      (fun q hq => hid q (List.mem_cons_of_mem _ hq))
      (fun q hq => hbody q (List.mem_cons_of_mem _ hq)) with
      ⟨st', hrun, hproc, hhtml, hmd, hpdf, tail, hev, hmeta, htl⟩
    refine ⟨st', ?_, ?_, hhtml, hmd, hpdf,
      [Event.download p.id, Event.metaJson p.id] ++ tail, ?_, ?_, ?_⟩
    · simp only [runPages, hpp]
      exact hrun
    · simp only [hproc, List.length_cons]
      omega
    · rw [hev]
      simp [List.append_assoc]
    · intro q hq
      rcases List.mem_cons.1 hq with h | h
      · subst h
        simp
      · exact List.mem_append.2 (Or.inr (hmeta q h))
    · intro e he
      rcases List.mem_append.1 he with h | h
      · rcases List.mem_cons.1 h with h2 | h2
        · exact Or.inl ⟨p.id, h2⟩
        · rcases List.mem_cons.1 h2 with h3 | h3
          · exact Or.inr ⟨p.id, h3⟩
          · simp at h3
      · exact htl e h

theorem runPages_ok (orc : Oracles) (formats : Formats)
    (hdl : ∀ pid, ∃ v, orc.downloadAttachments pid = Except.ok v) :
    ∀ (pages : List Page) (st : JobState),
      ∃ st', runPages orc formats pages st = (st', none) ∧
        st'.pagesProcessed = st.pagesProcessed +
          pages.countP (fun p => !(p.id == "")) ∧
        st'.pdfCount = st.pdfCount +
          (if formats.pdf then pages.countP (fun p =>
            !(p.id == "") && p.body.isSome && (orc.renderPdf p.id).isOk)
           else 0) := by
  intro pages
  induction pages with
  | nil =>
    intro st
    refine ⟨st, by simp [runPages], by simp, ?_⟩
    cases formats.pdf <;> simp
  | cons p ps ih =>
    intro st
    by_cases hpid : p.id = ""
    · have hpp := processPage_skip orc formats st p hpid
      rcases ih st with ⟨st', hrun, hproc, hpdf⟩
      refine ⟨st', ?_, ?_, ?_⟩
      · simp only [runPages, hpp]
        exact hrun
      · rw [hproc, List.countP_cons]
        simp [hpid]
      · rw [hpdf, List.countP_cons]
        cases formats.pdf <;> simp [hpid]
    · rcases hdl p.id with ⟨dl, hdlp⟩
      cases hb : p.body with
      | none =>
        have hpp := processPage_metaOnly orc formats st p hpid dl hdlp hb
        rcases ih ({ st with
            attachmentsDownloaded := st.attachmentsDownloaded + dl.1
            attachmentsFailed := st.attachmentsFailed + dl.2
            events := st.events ++ [Event.download p.id, Event.metaJson p.id]
            pagesProcessed := st.pagesProcessed + 1 }) with ⟨st', hrun, hproc, hpdf⟩
        refine ⟨st', ?_, ?_, ?_⟩
        · simp only [runPages, hpp]
          exact hrun
        · rw [hproc, List.countP_cons]
          dsimp only
          simp [hpid]
          omega
        · rw [hpdf, List.countP_cons]
          dsimp only
          cases formats.pdf <;> simp [hb]
      | some b =>
        have hc := processPage_counts orc formats st p hpid dl hdlp b hb
        cases hpp : processPage orc formats st p with
        | mk st1 oerr =>
          rw [hpp] at hc
          cases oerr with
          | some err => exact absurd hc.1 (by simp)
          | none =>
            rcases ih st1 with ⟨st', hrun, hproc, hpdf⟩
            refine ⟨st', ?_, ?_, ?_⟩
            · simp only [runPages, hpp]
              exact hrun
            · rw [hproc, hc.2.1, List.countP_cons]
              simp [hpid]
              omega
            · rw [hpdf, hc.2.2, List.countP_cons]
              cases hfp : formats.pdf with
              | false => simp [hfp]
              | true =>
                cases hr : (orc.renderPdf p.id).isOk
                · simp [hfp, hpid, hb, hr]
                · simp [hfp, hpid, hb, hr]
                  omega

-- ===========================================================================
-- § 19  Claim C9: pages with id but no body
-- ===========================================================================

/-- C9: during `convertPages`, if every page has a (non-empty) id but no
`body.storage.value` and the attachment client never throws, the job
completes without an exception; every page still gets its `meta.json`
written and is counted in `pagesProcessed`, and no `page.html`,
`page.md` or `page.pdf` artifact is produced — in particular, with any
requested formats (e.g. only `{pdf: true}`) the result reports
`pagesProcessed = N` and `pdfCount = 0`. -/
theorem c9_metaOnly (orc : Oracles) (pages : List Page) (formats : Formats)
    (hid : ∀ p ∈ pages, p.id ≠ "")
    (hbody : ∀ p ∈ pages, p.body = none)
    (hdl : ∀ pid, ∃ v, orc.downloadAttachments pid = Except.ok v) :
    ∃ r, (convertPages orc pages formats).1 = Except.ok r ∧
      r.pagesProcessed = pages.length ∧
      r.htmlCount = 0 ∧ r.mdCount = 0 ∧ r.pdfCount = 0 ∧
      (∀ p ∈ pages, Event.metaJson p.id ∈ (convertPages orc pages formats).2) ∧
      (∀ pid, Event.htmlFile pid ∉ (convertPages orc pages formats).2 ∧
        Event.mdFile pid ∉ (convertPages orc pages formats).2 ∧
        Event.pdfFile pid ∉ (convertPages orc pages formats).2) := by
  rcases runPages_metaOnly orc formats hdl pages (initState formats) hid hbody with
    ⟨st', hrun, hproc, hhtml, hmd, hpdf, tail, hev, hmeta, htl⟩
  have hconv1 : (convertPages orc pages formats).1 =
      Except.ok ⟨st'.pagesProcessed, st'.htmlCount, st'.mdCount, st'.pdfCount,
        st'.attachmentsDownloaded, st'.attachmentsFailed⟩ := by
    unfold convertPages
    rw [hrun]
  have hconv2 : (convertPages orc pages formats).2 =
      st'.events ++ (if formats.pdf then [Event.close] else []) := by
    unfold convertPages
    rw [hrun]
  refine ⟨⟨st'.pagesProcessed, st'.htmlCount, st'.mdCount, st'.pdfCount,
    st'.attachmentsDownloaded, st'.attachmentsFailed⟩, hconv1, ?_, ?_, ?_, ?_, ?_, ?_⟩
  · show st'.pagesProcessed = pages.length
    rw [hproc]
    simp [initState]
  · show st'.htmlCount = 0
    rw [hhtml]
    rfl
  · show st'.mdCount = 0
    rw [hmd]
    rfl
  · show st'.pdfCount = 0
    rw [hpdf]
    rfl
  · intro p hp
    rw [hconv2, hev]
    refine List.mem_append.2 (Or.inl (List.mem_append.2 (Or.inr ?_)))
    exact hmeta p hp
  · intro pid
    rw [hconv2, hev]
    refine ⟨?_, ?_, ?_⟩ <;>
    · intro hmem
      rcases List.mem_append.1 hmem with h | h
      · rcases List.mem_append.1 h with h2 | h2
        · simp [initState] at h2
        · rcases htl _ h2 with ⟨q, hq⟩ | ⟨q, hq⟩ <;> exact nomatch hq
      · have hcl : ∀ x ∈ (if formats.pdf then [Event.close] else []),
            x = Event.close := by
          cases formats.pdf <;> simp
        exact nomatch (hcl _ h)

theorem c9_metaOnly_witness :
    ∃ r, (convertPages
      ⟨fun _ => Except.ok (0, 0), fun _ => Except.error "render"⟩
      [⟨"1", "A", "sp", none, "space", "current", "", none⟩,
       ⟨"2", "B", "sp", some "1", "page", "current", "", none⟩]
      ⟨false, false, true⟩).1 = Except.ok r ∧
      r.pagesProcessed = 2 ∧ r.pdfCount = 0 := by
  rcases c9_metaOnly
      ⟨fun _ => Except.ok (0, 0), fun _ => Except.error "render"⟩
      [⟨"1", "A", "sp", none, "space", "current", "", none⟩,
       ⟨"2", "B", "sp", some "1", "page", "current", "", none⟩]
      ⟨false, false, true⟩
      (by decide) (by decide) (fun pid => ⟨(0, 0), rfl⟩) with
    ⟨r, hok, hproc, _, _, hpdf, _, _⟩
  exact ⟨r, hok, hproc, hpdf⟩

-- ===========================================================================
-- § 20  Claim C10: rendering-session lifecycle
-- ===========================================================================

/-- C10: `convertPages` emits exactly one session-acquire event per job
when PDF output is requested and none otherwise, and exactly as many
session-release events — on every exit path, including a mid-job
exception thrown by the attachment client (the release is appended by
the `finally` model unconditionally).  Moreover, when the attachment
client never throws, the job completes with `pagesProcessed` equal to
the number of pages with an id, and the pdf counter counts exactly the
pages whose individual render succeeded — a single page's render
failure is caught, leaves the session in use for the remaining pages,
and only reduces the pdf count. -/
theorem c10_session (orc : Oracles) (pages : List Page) (formats : Formats) :
    ((convertPages orc pages formats).2.count Event.launch =
      if formats.pdf then 1 else 0) ∧
    ((convertPages orc pages formats).2.count Event.close =
      if formats.pdf then 1 else 0) ∧
    ((∀ pid, ∃ v, orc.downloadAttachments pid = Except.ok v) →
      ∃ r, (convertPages orc pages formats).1 = Except.ok r ∧
        r.pagesProcessed = pages.countP (fun p => !(p.id == "")) ∧
        r.pdfCount = (if formats.pdf then pages.countP (fun p =>
          !(p.id == "") && p.body.isSome && (orc.renderPdf p.id).isOk)
          else 0)) := by
  rcases runPages_shape orc formats pages (initState formats) with ⟨tail, hev, htl⟩
  have hev2 : (convertPages orc pages formats).2 =
      (initState formats).events ++ tail ++
        (if formats.pdf then [Event.close] else []) := by
    unfold convertPages
    cases hr2 : (runPages orc formats pages (initState formats)).2 with
    | none =>
      cases hrp : runPages orc formats pages (initState formats) with
      | mk st' oerr =>
        rw [hrp] at hr2 hev
        subst hr2
        simp only []
        rw [← hev]
    | some e =>
      cases hrp : runPages orc formats pages (initState formats) with
      | mk st' oerr =>
        rw [hrp] at hr2 hev
        subst hr2
        simp only []
        rw [← hev]
  refine ⟨?_, ?_, ?_⟩
  · rw [hev2]
    simp only [List.count_append]
    rw [count_zero_of_pageEvents tail htl Event.launch rfl]
    cases hfp : formats.pdf <;> simp [initState, hfp, List.count_cons]
  · rw [hev2]
    simp only [List.count_append]
    rw [count_zero_of_pageEvents tail htl Event.close rfl]
    cases hfp : formats.pdf <;> simp [initState, hfp, List.count_cons]
  · intro hdl
    rcases runPages_ok orc formats hdl pages (initState formats) with
      ⟨st', hrun, hproc, hpdf⟩
    have hconv : (convertPages orc pages formats).1 =
        Except.ok ⟨st'.pagesProcessed, st'.htmlCount, st'.mdCount, st'.pdfCount,
          st'.attachmentsDownloaded, st'.attachmentsFailed⟩ := by
      unfold convertPages
      rw [hrun]
    refine ⟨_, hconv, ?_, ?_⟩
    · rw [hproc]
      simp [initState]
    · rw [hpdf]
      simp [initState]

theorem c10_session_witness :
    ((convertPages
      ⟨fun _ => Except.ok (1, 0),
       fun pid => if pid = "1" then Except.error "boom" else Except.ok ()⟩
      [⟨"1", "A", "sp", none, "space", "current", "", some "<p>a</p>"⟩,
       ⟨"2", "B", "sp", some "1", "page", "current", "", some "<p>b</p>"⟩]
      ⟨false, false, true⟩).2.count Event.launch = 1) ∧
    ((convertPages
      ⟨fun _ => Except.ok (1, 0),
       fun pid => if pid = "1" then Except.error "boom" else Except.ok ()⟩
      [⟨"1", "A", "sp", none, "space", "current", "", some "<p>a</p>"⟩,
       ⟨"2", "B", "sp", some "1", "page", "current", "", some "<p>b</p>"⟩]
      ⟨false, false, true⟩).2.count Event.close = 1) ∧
    (∃ r, (convertPages
      ⟨fun _ => Except.ok (1, 0),
       fun pid => if pid = "1" then Except.error "boom" else Except.ok ()⟩
      [⟨"1", "A", "sp", none, "space", "current", "", some "<p>a</p>"⟩,
       ⟨"2", "B", "sp", some "1", "page", "current", "", some "<p>b</p>"⟩]
      ⟨false, false, true⟩).1 = Except.ok r ∧
      r.pagesProcessed = 2 ∧ r.pdfCount = 1) := by
  have h := c10_session
    ⟨fun _ => Except.ok (1, 0),
     fun pid => if pid = "1" then Except.error "boom" else Except.ok ()⟩
    [⟨"1", "A", "sp", none, "space", "current", "", some "<p>a</p>"⟩,
     ⟨"2", "B", "sp", some "1", "page", "current", "", some "<p>b</p>"⟩]
    ⟨false, false, true⟩
  refine ⟨by simpa using h.1, by simpa using h.2.1, ?_⟩
  rcases h.2.2 (fun pid => ⟨(1, 0), rfl⟩) with ⟨r, hok, hproc, hpdf⟩
  refine ⟨r, hok, ?_, ?_⟩
  · rw [hproc]
    decide
  · rw [hpdf]
    decide

end AtlasBackup
